import Mathlib

/-!
Verification of gowebbrowse.

A shallow embedding of `gowebbrowse.go` (template substitution, check
execution, signature-file discovery, path expansion and dispatch) together
with theorems about it.

Go strings are immutable byte sequences; they are modelled as lists of byte
values (`Nat`).  String literals of the source are written with `bytes`.
-/

namespace GoWebBrowse

/-- A Go string: its sequence of bytes. -/
abbrev Str := List Nat

/-- The bytes of an ASCII literal of the source. -/
def bytes (s : String) : Str := s.toList.map Char.toNat

/-! ## Go standard library: `strings` -/

/-- Scan used by `strings.ReplaceAll(s, old, new)` for a non-empty `old`:
matches are found left to right, a match is replaced by `new` and the scan
resumes right after the matched text (`skip` counts the bytes of the current
match still to be passed over). Replacement text is never rescanned. -/
def replaceAux (old new : Str) : Nat → Str → Str
  | _, [] => []
  | skip + 1, _ :: s => replaceAux old new skip s
  | 0, x :: s =>
    if old.isPrefixOf (x :: s) then new ++ replaceAux old new (old.length - 1) s
    else x :: replaceAux old new 0 s

/-- Go `strings.ReplaceAll(s, old, new)`, for a non-empty `old` (every use in
the program has a non-empty literal as `old`). -/
def ReplaceAll (s old new : Str) : Str := replaceAux old new 0 s

/-- Go `strings.Index(s, substr)` counted from offset `i`: the byte index of
the first occurrence of `substr`, or `-1`. -/
def indexFrom (substr : Str) : Str → Nat → Int
  | [], i => if substr.isPrefixOf [] then (i : Int) else -1
  | x :: s, i => if substr.isPrefixOf (x :: s) then (i : Int) else indexFrom substr s (i + 1)

/-- Go `strings.Index(s, substr)`. -/
def Index (s substr : Str) : Int := indexFrom substr s 0

/-- Go `strings.TrimSuffix(s, suffix)`. -/
def TrimSuffix (s suffix : Str) : Str :=
  if suffix.isSuffixOf s then s.take (s.length - suffix.length) else s

/-! ## Go standard library: `path/filepath` (Unix separator `/`) -/

/-- Go `filepath.Base`: the last element of the path; trailing slashes are
removed first; `.` for the empty path and `/` for a path of slashes only. -/
def Base (path : Str) : Str :=
  if path = [] then bytes "."
  else
    let stripped := (path.reverse.dropWhile (fun b => b == 47)).reverse
    let last := (stripped.reverse.takeWhile (fun b => b != 47)).reverse
    if last = [] then bytes "/" else last

/-- Backward scan of `filepath.Ext`: `rev` is the part of the path not yet
visited, reversed; `acc` the bytes already passed. -/
def extAux : Str → Str → Str
  | [], _ => []
  | x :: rev, acc =>
    if x = 47 then [] else if x = 46 then x :: acc else extAux rev (x :: acc)

/-- Go `filepath.Ext`: the suffix beginning at the final dot of the last
element of the path, empty if there is no dot. -/
def Ext (path : Str) : Str := extAux path.reverse []

/-! ## The program -/

/-- Source `subParams`: three successive `strings.ReplaceAll` passes. -/
def subParams (baseStr domain company : Str) : Str :=
  let baseStr := ReplaceAll baseStr (bytes "{domain}") domain
  let baseStr := ReplaceAll baseStr (bytes "{hostname}") domain
  let baseStr := ReplaceAll baseStr (bytes "{company}") company
  baseStr

/-- Source `sigCheck`: one check of a signature file. A nil
slice and an empty slice behave alike in every use and are both `[]`. -/
structure sigCheck where
  Type' : Str
  URL : List Str
  Search : List Str
  Notes : Str
deriving DecidableEq

/-- Source `signFileStruct`: a parsed signature file. -/
structure signFileStruct where
  ID : Str
  Checks : List sigCheck
deriving DecidableEq

/-- Source `SIGFILEEXT`. -/
def SIGFILEEXT : List Str := [bytes ".yml", bytes ".yaml"]

/-- Source `Find`: index of the first element equal to `val` and `true`, or
`-1` and `false`. `i` is the index of the head of `slice`. -/
def findFrom (val : Str) : List Str → Nat → Int × Bool
  | [], _ => (-1, false)
  | item :: rest, i => if item = val then ((i : Int), true) else findFrom val rest (i + 1)

/-- Source `Find`. -/
def Find (slice : List Str) (val : Str) : Int × Bool := findFrom val slice 0

/-- Inner loop of `findSigFiles` over the extensions: appends `fileToCheck`
at the first extension found in it and breaks. -/
def checkExts (fileToCheck : Str) (sigFiles : List Str) : List Str → List Str
  | [] => sigFiles
  | ext :: rest =>
    let isSigFile := Index fileToCheck ext
    if isSigFile ≠ -1 then sigFiles ++ [fileToCheck]
    else checkExts fileToCheck sigFiles rest

/-- Outer loop of `findSigFiles`; `sigFiles` is the slice built so far. -/
def findSigFilesLoop (sigFiles : List Str) : List Str → List Str
  | [] => sigFiles
  | fileToCheck :: rest => findSigFilesLoop (checkExts fileToCheck sigFiles SIGFILEEXT) rest

/-- Source `findSigFiles`. -/
def findSigFiles (filesToParse : List Str) : List Str := findSigFilesLoop [] filesToParse

/-- The host as `openbrowser` observes it. -/
structure Host where
  /-- Value of `runtime.GOOS`. -/
  GOOS : Str
  /-- Whether `exec.Command(name, args...).Start()` returns a nil error. -/
  start : Str → List Str → Bool

/-- Source `openbrowser`: `true` when it returns, `false` when the error is
non-nil and `log.Fatal(err)` ends the process (a failed `Start`, or a
platform other than linux, windows and darwin). -/
def openbrowser (host : Host) (url : Str) : Bool :=
  if host.GOOS = bytes "linux" then host.start (bytes "xdg-open") [url]
  else if host.GOOS = bytes "windows" then
    host.start (bytes "rundll32") [bytes "url.dll,FileProtocolHandler", url]
  else if host.GOOS = bytes "darwin" then host.start (bytes "open") [url]
  else false

/-- What `performCheck` does to the outside world, in order. -/
inductive Event where
  /-- The OS handler was started on `url` by `openbrowser(url)`. -/
  | openURL (url : Str)
  /-- Text written by `fmt.Printf`. -/
  | stdout (text : Str)
  /-- Text passed to `log.Printf`. -/
  | logged (text : Str)
  /-- Call `log.Fatal(err)` in `openbrowser`: the process exits. -/
  | fatal
deriving DecidableEq

/-- The events of a piece of the program and whether it ended the process
(`exited`) instead of returning. -/
structure Trace where
  events : List Event
  exited : Bool
deriving DecidableEq

/-- Loop `for _, url := range urls` of the browser branch; it stops where
`openbrowser` ends the process. -/
def browseLoop (host : Host) (domain company : Str) : List Str → Trace
  | [] => { events := [], exited := false }
  | url :: rest =>
    let suburl := subParams url domain company
    if openbrowser host suburl then
      let r := browseLoop host domain company rest
      { events := Event.openURL suburl :: r.events, exited := r.exited }
    else { events := [Event.fatal], exited := true }

/-- Loop `for _, search := range searches` of the google and shodan branches;
`template` is the URL literal holding `{subsearch}`; it stops where
`openbrowser` ends the process. -/
def searchLoop (host : Host) (template domain company : Str) : List Str → Trace
  | [] => { events := [], exited := false }
  | search :: rest =>
    let subsearch := subParams search domain company
    if subsearch ≠ [] then
      let url := ReplaceAll template (bytes "{subsearch}") subsearch
      if openbrowser host url then
        let r := searchLoop host template domain company rest
        { events := Event.openURL url :: r.events, exited := r.exited }
      else { events := [Event.fatal], exited := true }
    else searchLoop host template domain company rest

/-- Source `performCheck`: the events it produces, in order, and whether a
failed launch ended the process before it returned. -/
def performCheck (host : Host) (id : Str) (check : sigCheck) (domain company : Str) : Trace :=
  let notes := check.Notes
  let checkType := check.Type'
  let urls := check.URL
  let searches := check.Search
  let action : Trace :=
    if checkType = bytes "" ∨ checkType = bytes "browser" ∨ checkType = bytes "browse" then
      browseLoop host domain company urls
    else if checkType = bytes "google" then
      searchLoop host (bytes "https://www.google.com/search?q={subsearch}") domain company
        searches
    else if checkType = bytes "shodan" then
      searchLoop host (bytes "https://www.shodan.io/search?query={subsearch}") domain company
        searches
    else
      { events :=
          [Event.stdout (bytes "[-] Unknown checkType: " ++ checkType ++ bytes "\n"),
           Event.logged (bytes "[-] Unknown checkType: " ++ checkType ++ bytes "\n")],
        exited := false }
  if action.exited then action
  else
    let note : List Event :=
      if notes ≠ [] then
        let subnotes := subParams notes domain company
        [Event.stdout (bytes "[!] [" ++ id ++ bytes "]: " ++ subnotes ++ bytes "\n")]
      else []
    { events := action.events ++ note, exited := false }

/-- Source `fileNameWOExt`. -/
def fileNameWOExt (filePath : Str) : Str :=
  let fileName := Base filePath
  TrimSuffix fileName (Ext fileName)

/-- The Go map `sigFileContents`, as an association list with unique keys. -/
abbrev SigTable := List (Str × signFileStruct)

/-- Map read `m[key]`: the zero value when the key is absent. -/
def SigTable.get (m : SigTable) (key : Str) : signFileStruct :=
  match m.find? (fun e => e.1 == key) with
  | some e => e.2
  | none => { ID := [], Checks := [] }

/-- Map write `m[key] = v`. -/
def SigTable.set (m : SigTable) (key : Str) (v : signFileStruct) : SigTable :=
  if m.any (fun e => e.1 == key) then m.map (fun e => if e.1 == key then (key, v) else e)
  else m ++ [(key, v)]

/-- One invocation `performCheck(checkID, myCheck, domain, company)`. -/
structure Call where
  checkID : Str
  myCheck : sigCheck
deriving DecidableEq

/-- Body of the worker loop for one received key: the id is the signature's
own, or the file name without extension when that is empty; one call per
check, in the order of `Checks`. -/
def workerBody (sigFileContents : SigTable) (sigFile : Str) : List Call :=
  let sigFileContent := sigFileContents.get sigFile
  let myChecks := sigFileContent.Checks
  let checkID := if sigFileContent.ID = [] then fileNameWOExt sigFile else sigFileContent.ID
  myChecks.map (fun myCheck => { checkID := checkID, myCheck := myCheck })

/-- Source `worker`: the calls it is to make for the keys it receives from
the channel, in the order received. -/
def worker (sigFileContents : SigTable) : List Str → List Call
  | [] => []
  | sigFile :: rest => workerBody sigFileContents sigFile ++ worker sigFileContents rest

/-- Execution of a sequence of `performCheck` calls by a worker: the calls
run one after the other until one of them ends the process. -/
def runCalls (host : Host) (domain company : Str) : List Call → Trace
  | [] => { events := [], exited := false }
  | call :: rest =>
    let r := performCheck host call.checkID call.myCheck domain company
    if r.exited then r
    else
      let r2 := runCalls host domain company rest
      { events := r.events ++ r2.events, exited := r2.exited }

/-- The opened URLs of an event sequence, in order. -/
def opened : List Event → List Str
  | [] => []
  | Event.openURL url :: rest => url :: opened rest
  | _ :: rest => opened rest

/-- The part of `os.FileMode` that `main` inspects. -/
inductive FileMode where
  | dir
  | regular
  | other
deriving DecidableEq

/-- The filesystem state as `main` observes it. -/
structure FileSystem where
  /-- Result of `os.Stat(path)`: the mode, `none` when it returns an error. -/
  stat : Str → Option FileMode
  /-- Matches of `filepath.Glob(pattern)`; its error is discarded by `main`. -/
  glob : Str → List Str
  /-- Paths on which `filepath.Walk(root, fn)` calls `fn`, in order (`fn`
  always returns nil, so nothing is skipped). -/
  walk : Str → List Str
  /-- Result of `parseSigFile(sigFile)`; `none` when `yaml.Unmarshal` fails. -/
  parseSigFile : Str → Option signFileStruct

/-- The ways `main` ends before dispatch. -/
inductive Abort where
  /-- `log.Fatalf("[-] Path: %s not found")`. -/
  | pathNotFound (path : Str)
  /-- Inside the walk callback `os.Stat` failed, `fi` is nil and `fi.Mode()`
  panics. -/
  | nilFileInfo (path : Str)
  /-- `log.Fatalf("[-] Unmarshal: %v")` in `parseSigFile`. -/
  | unmarshal (sigFile : Str)
  /-- No worker was started and `main` blocks on the first send to the
  unbuffered channel: the Go runtime ends the process (all goroutines are
  asleep). -/
  | deadlock
deriving DecidableEq

/-- The callback given to `filepath.Walk` in `main`, on one visited path. -/
def walkFn (fs : FileSystem) (filesToParse : List Str) (path : Str) :
    Except Abort (List Str) :=
  match fs.stat path with
  | none => Except.error (Abort.nilFileInfo path)
  | some mode =>
    if mode = FileMode.regular then
      let found := (Find filesToParse path).2
      if !found then Except.ok (filesToParse ++ [path]) else Except.ok filesToParse
    else Except.ok filesToParse

/-- The walk of one directory: `walkFn` on every visited path, in order. -/
def walkLoop (fs : FileSystem) : List Str → List Str → Except Abort (List Str)
  | filesToParse, [] => Except.ok filesToParse
  | filesToParse, path :: rest =>
    match walkFn fs filesToParse path with
    | Except.error e => Except.error e
    | Except.ok files => walkLoop fs files rest

/-- Loop `for _, matchingPath := range matchingPaths` of the glob branch. -/
def globLoop : List Str → List Str → List Str
  | filesToParse, [] => filesToParse
  | filesToParse, matchingPath :: rest => globLoop (filesToParse ++ [matchingPath]) rest

/-- Body of the loop over `pathsToCheck` in `main`. -/
def expandPath (fs : FileSystem) (filesToParse : List Str) (pathToCheck : Str) :
    Except Abort (List Str) :=
  if Index pathToCheck (bytes "*") ≥ 0 then
    Except.ok (globLoop filesToParse (fs.glob pathToCheck))
  else
    match fs.stat pathToCheck with
    | none => Except.error (Abort.pathNotFound pathToCheck)
    | some FileMode.dir => walkLoop fs filesToParse (fs.walk pathToCheck)
    | some FileMode.regular =>
      let found := (Find filesToParse pathToCheck).2
      if !found then Except.ok (filesToParse ++ [pathToCheck]) else Except.ok filesToParse
    | some FileMode.other => Except.ok filesToParse

/-- The loop over `pathsToCheck` in `main`, from the list built so far. -/
def expandPaths (fs : FileSystem) : List Str → List Str → Except Abort (List Str)
  | filesToParse, [] => Except.ok filesToParse
  | filesToParse, pathToCheck :: rest =>
    match expandPath fs filesToParse pathToCheck with
    | Except.error e => Except.error e
    | Except.ok files => expandPaths fs files rest

/-- Loop of `main` filling `sigFileContents`. -/
def loadLoop (fs : FileSystem) : SigTable → List Str → Except Abort SigTable
  | sigFileContents, [] => Except.ok sigFileContents
  | sigFileContents, sigFile :: rest =>
    match fs.parseSigFile sigFile with
    | none => Except.error (Abort.unmarshal sigFile)
    | some content => loadLoop fs (sigFileContents.set sigFile content) rest

/-- The keys worker `w` of `maxThreads` workers receives: `sched` names, for
each key sent on the channel in order, the worker that receives it. An entry
is read modulo the number of workers and a missing entry as 0, so that every
`sched` hands every key to exactly one worker. -/
def received (maxThreads : Nat) : List Str → List Nat → Nat → List Str
  | [], _, _ => []
  | sigFile :: rest, sched, w =>
    if sched.headD 0 % maxThreads = w then sigFile :: received maxThreads rest sched.tail w
    else received maxThreads rest sched.tail w

/-- Dispatch in `main` with `maxThreads` workers (numbered from 0): the calls
each worker is to make, in order, under the distribution `sched` of the
queued keys. Each worker runs its calls as `runCalls` does, and a launch that
fails in any worker ends the whole process. -/
def dispatch (sigFileContents : SigTable) (sigFiles : List Str) (sched : List Nat)
    (maxThreads : Nat) : List (List Call) :=
  (List.range maxThreads).map
    (fun w => worker sigFileContents (received maxThreads sigFiles sched w))

/-- Source `main` from `pathsToCheck` on: expansion, filtering, loading and
dispatch; the result lists the calls of each worker. The loop
`for i := 1; i <= maxThreads; i++` starts no worker when `maxThreads` is not
positive, and the first send then blocks for ever. -/
def main (fs : FileSystem) (pathsToCheck : List Str) (sched : List Nat) (maxThreads : Int) :
    Except Abort (List (List Call)) :=
  match expandPaths fs [] pathsToCheck with
  | Except.error e => Except.error e
  | Except.ok filesToParse =>
    let sigFiles := findSigFiles filesToParse
    match loadLoop fs [] sigFiles with
    | Except.error e => Except.error e
    | Except.ok sigFileContents =>
      if maxThreads ≤ 0 ∧ sigFiles ≠ [] then Except.error Abort.deadlock
      else Except.ok (dispatch sigFileContents sigFiles sched maxThreads.toNat)

/-- Spec reading of `subParams`: one left-to-right pass over the template in
which every occurrence of `{domain}` and `{hostname}` becomes the domain value
and every occurrence of `{company}` the company value, all other bytes being
copied; inserted values are not looked at again (`skip` counts the bytes of
the current placeholder still to be passed over). -/
def simultaneousAux (domain company : Str) : Nat → Str → Str
  | _, [] => []
  | skip + 1, _ :: s => simultaneousAux domain company skip s
  | 0, x :: s =>
    if (bytes "{domain}").isPrefixOf (x :: s) then
      domain ++ simultaneousAux domain company ((bytes "{domain}").length - 1) s
    else if (bytes "{hostname}").isPrefixOf (x :: s) then
      domain ++ simultaneousAux domain company ((bytes "{hostname}").length - 1) s
    else if (bytes "{company}").isPrefixOf (x :: s) then
      company ++ simultaneousAux domain company ((bytes "{company}").length - 1) s
    else x :: simultaneousAux domain company 0 s

/-- Spec reading of `subParams`: the simultaneous substitution. -/
def simultaneousSubst (template domain company : Str) : Str :=
  simultaneousAux domain company 0 template

/-- A linux host on which every handler starts. -/
def startsHost : Host where
  GOOS := bytes "linux"
  start := fun _ _ => true

/-- A freebsd host: a platform `openbrowser` does not support. -/
def freebsdHost : Host where
  GOOS := bytes "freebsd"
  start := fun _ _ => true

/-- A linux host without `xdg-open`: no handler starts. -/
def noHandlerHost : Host where
  GOOS := bytes "linux"
  start := fun _ _ => false

/-- A darwin host on which the handler starts on every URL but
`https://Acme.example`. -/
def partialHost : Host where
  GOOS := bytes "darwin"
  start := fun _ args => decide (args ≠ [bytes "https://Acme.example"])

/-- A sample filesystem: one regular file `a.yaml`, matched by `*.yaml`,
holding one browser check. -/
def sampleFS : FileSystem where
  stat := fun p => if p = bytes "a.yaml" then some FileMode.regular else none
  glob := fun p => if p = bytes "*.yaml" then [bytes "a.yaml"] else []
  walk := fun _ => []
  parseSigFile := fun _ =>
    some { ID := bytes "t", Checks := [⟨bytes "browser", [bytes "https://{domain}"], [], []⟩] }

/-- A sample filesystem: the directory `d` holding the regular files
`d/a.yaml` and `d/b.txt`. -/
def sampleDirFS : FileSystem where
  stat := fun p =>
    if p = bytes "d" then some FileMode.dir
    else if p = bytes "d/a.yaml" ∨ p = bytes "d/b.txt" then some FileMode.regular
    else none
  glob := fun _ => []
  walk := fun p => if p = bytes "d" then [bytes "d", bytes "d/a.yaml", bytes "d/b.txt"] else []
  parseSigFile := fun _ => some { ID := [], Checks := [] }

/-- List `acc2` extends `acc1` by entries that are new: pairwise distinct and
absent from `acc1`. -/
def ExtendsFresh (acc1 acc2 : List Str) : Prop :=
  ∃ added : List Str, acc2 = acc1 ++ added ∧ added.Nodup ∧ ∀ p ∈ added, p ∉ acc1

/-- Template shape under which the passes of `subParams` cannot build a
placeholder out of pieces: no `{` (byte 123) is followed by another `{`
before the next `}` (byte 125). `pending` tells whether a `{` is waiting for
its `}`. -/
def unnested : Bool → Str → Bool
  | _, [] => true
  | pending, x :: s =>
    if x = 123 then (if pending then false else unnested true s)
    else if x = 125 then unnested false s
    else unnested pending s

/-- The value holds no `{`. -/
def noOpenBrace (v : Str) : Bool := v.all (fun b => b != 123)

/-- The shape `unnested false` as a grammar: bytes other than `{`, closed
groups `{w}` and a final unclosed `{w`, where `w` holds no brace. -/
inductive Unnested : Str → Prop where
  | nil : Unnested []
  | text (x : Nat) (s : Str) : x ≠ 123 → Unnested s → Unnested (x :: s)
  | group (w rest : Str) : 123 ∉ w → 125 ∉ w → Unnested rest →
      Unnested (123 :: w ++ 125 :: rest)
  | unclosed (w : Str) : 123 ∉ w → 125 ∉ w → Unnested (123 :: w)

/-- The shape of `performCheck`: the action of the type, then the notes line
unless the action ended the process. -/
def withNote (action : Trace) (id notes d c : Str) : Trace :=
  if action.exited then action
  else
    { events := action.events ++
        (if notes ≠ [] then
          [Event.stdout (bytes "[!] [" ++ id ++ bytes "]: " ++ subParams notes d c ++ bytes "\n")]
        else []),
      exited := false }

/-- A notes line: text written to standard output that starts with the tag
`[!] [` of the notes format `[!] [%s]: %s`. -/
def isNoteLine : Event → Bool
  | Event.stdout text => (bytes "[!] [").isPrefixOf text
  | _ => false

/-! ## Substitution into the search URL literals -/

theorem replaceAll_google (sub : Str) :
    ReplaceAll (bytes "https://www.google.com/search?q={subsearch}") (bytes "{subsearch}") sub
      = bytes "https://www.google.com/search?q=" ++ sub := by
  have h : ReplaceAll (bytes "https://www.google.com/search?q={subsearch}")
      (bytes "{subsearch}") sub = bytes "https://www.google.com/search?q=" ++ (sub ++ []) := rfl
  rw [h, List.append_nil]

theorem replaceAll_shodan (sub : Str) :
    ReplaceAll (bytes "https://www.shodan.io/search?query={subsearch}") (bytes "{subsearch}") sub
      = bytes "https://www.shodan.io/search?query=" ++ sub := by
  have h : ReplaceAll (bytes "https://www.shodan.io/search?query={subsearch}")
      (bytes "{subsearch}") sub = bytes "https://www.shodan.io/search?query=" ++ (sub ++ []) := rfl
  rw [h, List.append_nil]

/-! ## The loops of `performCheck` -/

theorem openbrowser_startsHost (url : Str) : openbrowser startsHost url = true := rfl

theorem opened_append (xs ys : List Event) : opened (xs ++ ys) = opened xs ++ opened ys := by
  induction xs with
  | nil => rfl
  | cons e rest ih => cases e <;> simp [opened, ih]

theorem opened_ite_note (p : Prop) [Decidable p] (text : Str) :
    opened (if p then [Event.stdout text] else []) = [] := by
  split_ifs <;> rfl

theorem browseLoop_spec (host : Host) (d c : Str) (urls : List Str) :
    opened (browseLoop host d c urls).events
      = (urls.map (fun url => subParams url d c)).takeWhile (openbrowser host)
    ∧ (browseLoop host d c urls).exited
      = !(urls.map (fun url => subParams url d c)).all (openbrowser host) := by
  induction urls with
  | nil => exact ⟨rfl, rfl⟩
  | cons u rest ih =>
    by_cases h : openbrowser host (subParams u d c) = true
    · simp [browseLoop, h, opened, ih.1, ih.2, List.takeWhile_cons]
    · simp [browseLoop, h, opened, List.takeWhile_cons]

theorem searchLoop_spec (host : Host) (template d c : Str) (searches : List Str) :
    opened (searchLoop host template d c searches).events
      = ((((searches.map (fun s => subParams s d c)).filter (fun s => decide (s ≠ []))).map
          (fun s => ReplaceAll template (bytes "{subsearch}") s))).takeWhile (openbrowser host)
    ∧ (searchLoop host template d c searches).exited
      = !((((searches.map (fun s => subParams s d c)).filter (fun s => decide (s ≠ []))).map
          (fun s => ReplaceAll template (bytes "{subsearch}") s))).all (openbrowser host) := by
  induction searches with
  | nil => exact ⟨rfl, rfl⟩
  | cons x rest ih =>
    by_cases h : subParams x d c = []
    · simp only [searchLoop, h, ne_eq, not_true_eq_false, if_false, List.map_cons]
      rw [List.filter_cons_of_neg (by simp)]
      exact ih
    · by_cases ho : openbrowser host (ReplaceAll template (bytes "{subsearch}") (subParams x d c))
          = true
      · simp [searchLoop, h, ho, opened, ih.1, ih.2, List.takeWhile_cons]
      · simp [searchLoop, h, ho, opened, List.takeWhile_cons]

theorem filter_isNoteLine_browseLoop (host : Host) (d c : Str) (urls : List Str) :
    (browseLoop host d c urls).events.filter isNoteLine = [] := by
  induction urls with
  | nil => rfl
  | cons u rest ih =>
    by_cases h : openbrowser host (subParams u d c) = true
    · simp [browseLoop, h, isNoteLine, ih]
    · simp [browseLoop, h, isNoteLine]

theorem filter_isNoteLine_searchLoop (host : Host) (template d c : Str) (searches : List Str) :
    (searchLoop host template d c searches).events.filter isNoteLine = [] := by
  induction searches with
  | nil => rfl
  | cons x rest ih =>
    by_cases h : subParams x d c = []
    · simp [searchLoop, h, ih]
    · by_cases ho : openbrowser host (ReplaceAll template (bytes "{subsearch}") (subParams x d c))
          = true
      · simp [searchLoop, h, ho, isNoteLine, ih]
      · simp [searchLoop, h, ho, isNoteLine]

theorem performCheck_google (host : Host) (id d c notes : Str) (urls searches : List Str) :
    performCheck host id ⟨bytes "google", urls, searches, notes⟩ d c
      = withNote (searchLoop host (bytes "https://www.google.com/search?q={subsearch}") d c
          searches) id notes d c := by
  have h1 : ¬ (bytes "google" = bytes "" ∨ bytes "google" = bytes "browser"
      ∨ bytes "google" = bytes "browse") := by decide
  simp only [performCheck, withNote, if_neg h1, if_true]

theorem performCheck_shodan (host : Host) (id d c notes : Str) (urls searches : List Str) :
    performCheck host id ⟨bytes "shodan", urls, searches, notes⟩ d c
      = withNote (searchLoop host (bytes "https://www.shodan.io/search?query={subsearch}") d c
          searches) id notes d c := by
  have h1 : ¬ (bytes "shodan" = bytes "" ∨ bytes "shodan" = bytes "browser"
      ∨ bytes "shodan" = bytes "browse") := by decide
  have h2 : ¬ (bytes "shodan" = bytes "google") := by decide
  simp only [performCheck, withNote, if_neg h1, if_neg h2, if_true]

theorem performCheck_browser (host : Host) (t id d c notes : Str) (urls searches : List Str)
    (ht : t = bytes "" ∨ t = bytes "browser" ∨ t = bytes "browse") :
    performCheck host id ⟨t, urls, searches, notes⟩ d c
      = withNote (browseLoop host d c urls) id notes d c := by
  simp only [performCheck, withNote, if_pos ht]

theorem performCheck_unknown (host : Host) (t id d c notes : Str) (urls searches : List Str)
    (h1 : ¬ (t = bytes "" ∨ t = bytes "browser" ∨ t = bytes "browse"))
    (h2 : t ≠ bytes "google") (h3 : t ≠ bytes "shodan") :
    performCheck host id ⟨t, urls, searches, notes⟩ d c
      = { events :=
            [Event.stdout (bytes "[-] Unknown checkType: " ++ t ++ bytes "\n"),
             Event.logged (bytes "[-] Unknown checkType: " ++ t ++ bytes "\n")]
            ++ (if notes ≠ [] then
                  [Event.stdout
                    (bytes "[!] [" ++ id ++ bytes "]: " ++ subParams notes d c ++ bytes "\n")]
                else []),
          exited := false } := by
  simp only [performCheck, if_neg h1, if_neg h2, if_neg h3, Bool.false_eq_true, if_false]

theorem withNote_opened (a : Trace) (id notes d c : Str) :
    opened (withNote a id notes d c).events = opened a.events
    ∧ (withNote a id notes d c).exited = a.exited := by
  unfold withNote
  by_cases h : a.exited = true
  · rw [if_pos h]
    exact ⟨rfl, rfl⟩
  · rw [if_neg h]
    refine ⟨?_, (Bool.eq_false_iff.mpr h).symm⟩
    simp only [opened_append, opened_ite_note, List.append_nil]

theorem takeWhile_of_forall (p : Str → Bool) (l : List Str) (h : ∀ x : Str, p x = true) :
    l.takeWhile p = l ∧ l.all p = true :=
  ⟨List.takeWhile_eq_self_iff.mpr (fun x _ => h x), List.all_eq_true.mpr (fun x _ => h x)⟩

/-! ## Claims about `performCheck` -/

/-- Counterexample to C2 as stated: on a platform `openbrowser` does not
support (freebsd) the google check with search `{company} leak` and company
Acme opens no URL: the launch fails and the process exits. -/
theorem performCheck_search_launch_failure :
    ¬ (∀ (host : Host) (id d c notes : Str) (urls searches : List Str),
        opened (performCheck host id ⟨bytes "google", urls, searches, notes⟩ d c).events
          = ((searches.map (fun s => subParams s d c)).filter (fun s => decide (s ≠ []))).map
              (fun s => bytes "https://www.google.com/search?q=" ++ s))
    ∧ performCheck freebsdHost (bytes "t") ⟨bytes "google", [], [bytes "{company} leak"], []⟩
        [] (bytes "Acme") = { events := [Event.fatal], exited := true } := by
  refine ⟨?_, by decide⟩
  intro h
  exact absurd (h freebsdHost (bytes "t") [] (bytes "Acme") [] [] [bytes "{company} leak"])
    (by decide)

/-- C2 (amended): on a host where every launch of the handler succeeds, a
check of type google or shodan opens, in the order of the searches, the fixed
prefix followed by the substituted search string (no encoding), one URL per
search whose substituted string is non-empty, and returns; the urls of the
check play no part. On any host the URLs opened are the longest initial run
of that sequence whose launches succeed, and the process exits exactly when
one of them fails. The google check with search `{company} leak`, empty
domain and company Acme opens exactly
`https://www.google.com/search?q=Acme leak` where the handler starts. -/
theorem performCheck_search_opens (host : Host) (id d c notes : Str) (urls searches : List Str)
    (hstart : ∀ url : Str, openbrowser host url = true) :
    (opened (performCheck host id ⟨bytes "google", urls, searches, notes⟩ d c).events
        = ((searches.map (fun s => subParams s d c)).filter (fun s => decide (s ≠ []))).map
            (fun s => bytes "https://www.google.com/search?q=" ++ s)
      ∧ (performCheck host id ⟨bytes "google", urls, searches, notes⟩ d c).exited = false
      ∧ opened (performCheck host id ⟨bytes "shodan", urls, searches, notes⟩ d c).events
        = ((searches.map (fun s => subParams s d c)).filter (fun s => decide (s ≠ []))).map
            (fun s => bytes "https://www.shodan.io/search?query=" ++ s)
      ∧ (performCheck host id ⟨bytes "shodan", urls, searches, notes⟩ d c).exited = false)
    ∧ (∀ other : Host,
        opened (performCheck other id ⟨bytes "google", urls, searches, notes⟩ d c).events
          = (((searches.map (fun s => subParams s d c)).filter (fun s => decide (s ≠ []))).map
              (fun s => bytes "https://www.google.com/search?q=" ++ s)).takeWhile
              (openbrowser other)
        ∧ (performCheck other id ⟨bytes "google", urls, searches, notes⟩ d c).exited
          = !(((searches.map (fun s => subParams s d c)).filter (fun s => decide (s ≠ []))).map
              (fun s => bytes "https://www.google.com/search?q=" ++ s)).all (openbrowser other)
        ∧ opened (performCheck other id ⟨bytes "shodan", urls, searches, notes⟩ d c).events
          = (((searches.map (fun s => subParams s d c)).filter (fun s => decide (s ≠ []))).map
              (fun s => bytes "https://www.shodan.io/search?query=" ++ s)).takeWhile
              (openbrowser other)
        ∧ (performCheck other id ⟨bytes "shodan", urls, searches, notes⟩ d c).exited
          = !(((searches.map (fun s => subParams s d c)).filter (fun s => decide (s ≠ []))).map
              (fun s => bytes "https://www.shodan.io/search?query=" ++ s)).all
              (openbrowser other))
    ∧ opened (performCheck startsHost id ⟨bytes "google", urls, [bytes "{company} leak"], notes⟩
          [] (bytes "Acme")).events
      = [bytes "https://www.google.com/search?q=Acme leak"] := by
  have hall : ∀ other : Host,
      opened (performCheck other id ⟨bytes "google", urls, searches, notes⟩ d c).events
          = (((searches.map (fun s => subParams s d c)).filter (fun s => decide (s ≠ []))).map
              (fun s => bytes "https://www.google.com/search?q=" ++ s)).takeWhile
              (openbrowser other)
        ∧ (performCheck other id ⟨bytes "google", urls, searches, notes⟩ d c).exited
          = !(((searches.map (fun s => subParams s d c)).filter (fun s => decide (s ≠ []))).map
              (fun s => bytes "https://www.google.com/search?q=" ++ s)).all (openbrowser other)
        ∧ opened (performCheck other id ⟨bytes "shodan", urls, searches, notes⟩ d c).events
          = (((searches.map (fun s => subParams s d c)).filter (fun s => decide (s ≠ []))).map
              (fun s => bytes "https://www.shodan.io/search?query=" ++ s)).takeWhile
              (openbrowser other)
        ∧ (performCheck other id ⟨bytes "shodan", urls, searches, notes⟩ d c).exited
          = !(((searches.map (fun s => subParams s d c)).filter (fun s => decide (s ≠ []))).map
              (fun s => bytes "https://www.shodan.io/search?query=" ++ s)).all
              (openbrowser other) := by
    intro other
    have hg := searchLoop_spec other (bytes "https://www.google.com/search?q={subsearch}") d c
      searches
    have hs := searchLoop_spec other (bytes "https://www.shodan.io/search?query={subsearch}") d c
      searches
    simp only [replaceAll_google] at hg
    simp only [replaceAll_shodan] at hs
    rw [performCheck_google, performCheck_shodan, (withNote_opened _ id notes d c).1,
      (withNote_opened _ id notes d c).2, (withNote_opened _ id notes d c).1,
      (withNote_opened _ id notes d c).2]
    exact ⟨hg.1, hg.2, hs.1, hs.2⟩
  refine ⟨?_, hall, ?_⟩
  · obtain ⟨h1, h2, h3, h4⟩ := hall host
    rw [h1, h2, h3, h4, (takeWhile_of_forall _ _ hstart).1, (takeWhile_of_forall _ _ hstart).2,
      (takeWhile_of_forall _ _ hstart).1, (takeWhile_of_forall _ _ hstart).2]
    exact ⟨rfl, rfl, rfl, rfl⟩
  · rw [performCheck_google, (withNote_opened _ id notes [] (bytes "Acme")).1]
    decide

/-- Witness of C2 (amended): a linux host on which every handler starts. -/
theorem performCheck_search_opens_witness :
    (∀ url : Str, openbrowser startsHost url = true)
    ∧ opened (performCheck startsHost (bytes "t")
        ⟨bytes "shodan", [bytes "u"], [bytes "org:{company}", bytes "{domain}"], []⟩
        [] (bytes "Acme")).events
      = [bytes "https://www.shodan.io/search?query=org:Acme"] :=
  ⟨openbrowser_startsHost,
    (performCheck_search_opens startsHost (bytes "t") [] (bytes "Acme") [] [bytes "u"]
      [bytes "org:{company}", bytes "{domain}"] openbrowser_startsHost).1.2.2.1⟩

/-- Counterexample to C3 as stated: on a host where the launch fails on the
second URL, a browser check with three url templates opens only the first
and the process exits. -/
theorem performCheck_browse_launch_failure :
    ¬ (∀ (host : Host) (id d c notes : Str) (urls searches : List Str),
        opened (performCheck host id ⟨bytes "browser", urls, searches, notes⟩ d c).events
          = urls.map (fun url => subParams url d c))
    ∧ performCheck partialHost (bytes "t")
        ⟨bytes "browser", [bytes "https://{domain}", bytes "https://{company}.example",
          bytes "https://{domain}/x"], [], []⟩ (bytes "acme.com") (bytes "Acme")
      = { events := [Event.openURL (bytes "https://acme.com"), Event.fatal], exited := true } := by
  refine ⟨?_, by decide⟩
  intro h
  exact absurd (h partialHost (bytes "t") (bytes "acme.com") (bytes "Acme") []
    [bytes "https://{domain}", bytes "https://{company}.example", bytes "https://{domain}/x"] [])
    (by decide)

/-- C3 (amended): on a host where every launch of the handler succeeds, a
check of type empty, browser or browse opens exactly the substituted url
templates of the check, in order, one per template (none for an empty list),
and returns; the searches of the check play no part. On any host the URLs
opened are the longest initial run of that sequence whose launches succeed,
and the process exits exactly when one of them fails. -/
theorem performCheck_browse_opens (host : Host) (id d c notes : Str) (urls searches : List Str)
    (hstart : ∀ url : Str, openbrowser host url = true) :
    (∀ t : Str, t = bytes "" ∨ t = bytes "browser" ∨ t = bytes "browse" →
        opened (performCheck host id ⟨t, urls, searches, notes⟩ d c).events
          = urls.map (fun url => subParams url d c)
        ∧ (performCheck host id ⟨t, urls, searches, notes⟩ d c).exited = false)
    ∧ (∀ (other : Host) (t : Str), t = bytes "" ∨ t = bytes "browser" ∨ t = bytes "browse" →
        opened (performCheck other id ⟨t, urls, searches, notes⟩ d c).events
          = (urls.map (fun url => subParams url d c)).takeWhile (openbrowser other)
        ∧ (performCheck other id ⟨t, urls, searches, notes⟩ d c).exited
          = !(urls.map (fun url => subParams url d c)).all (openbrowser other))
    ∧ (∀ other : Host,
        opened (performCheck other id ⟨bytes "browser", [], searches, notes⟩ d c).events = []) := by
  have hall : ∀ (other : Host) (us : List Str) (t : Str),
      t = bytes "" ∨ t = bytes "browser" ∨ t = bytes "browse" →
        opened (performCheck other id ⟨t, us, searches, notes⟩ d c).events
          = (us.map (fun url => subParams url d c)).takeWhile (openbrowser other)
        ∧ (performCheck other id ⟨t, us, searches, notes⟩ d c).exited
          = !(us.map (fun url => subParams url d c)).all (openbrowser other) := by
    intro other us t ht
    rw [performCheck_browser other t id d c notes us searches ht,
      (withNote_opened _ id notes d c).1, (withNote_opened _ id notes d c).2]
    exact browseLoop_spec other d c us
  refine ⟨?_, fun other t ht => hall other urls t ht, ?_⟩
  · intro t ht
    obtain ⟨h1, h2⟩ := hall host urls t ht
    rw [h1, h2, (takeWhile_of_forall _ _ hstart).1, (takeWhile_of_forall _ _ hstart).2]
    exact ⟨rfl, rfl⟩
  · intro other
    rw [(hall other [] (bytes "browser") (Or.inr (Or.inl rfl))).1]
    rfl

/-- Witness of C3 (amended): a linux host on which every handler starts. -/
theorem performCheck_browse_opens_witness :
    (∀ url : Str, openbrowser startsHost url = true)
    ∧ opened (performCheck startsHost (bytes "t")
        ⟨bytes "", [bytes "https://{domain}", bytes "https://{company}.example"],
          [bytes "s"], []⟩ (bytes "acme.com") (bytes "Acme")).events
      = [bytes "https://acme.com", bytes "https://Acme.example"] :=
  ⟨openbrowser_startsHost,
    ((performCheck_browse_opens startsHost (bytes "t") (bytes "acme.com") (bytes "Acme") []
      [bytes "https://{domain}", bytes "https://{company}.example"] [bytes "s"]
      openbrowser_startsHost).1 (bytes "") (Or.inl rfl)).1⟩

theorem runCalls_cons_returns (host : Host) (d c : Str) (call : Call) (rest : List Call)
    (h : (performCheck host call.checkID call.myCheck d c).exited = false) :
    runCalls host d c (call :: rest)
      = { events := (performCheck host call.checkID call.myCheck d c).events
            ++ (runCalls host d c rest).events,
          exited := (runCalls host d c rest).exited } := by
  simp only [runCalls, h, Bool.false_eq_true, if_false]

/-- C4: on every host, a check whose type is none of the five recognised ones
opens no URL whatever its urls and searches hold, writes the diagnostic
`[-] Unknown checkType: <type>` to standard output (and to the log), then the
notes line if any, and returns without ending the process; the worker, having
reached this check of a signature, runs it and goes on with the checks
declared after it. -/
theorem performCheck_unknown_type (host : Host) (t id d c notes : Str)
    (urls searches : List Str) (m : SigTable) (sigFile : Str) (pre post : List sigCheck)
    (ht : t ≠ bytes "" ∧ t ≠ bytes "browser" ∧ t ≠ bytes "browse" ∧ t ≠ bytes "google"
      ∧ t ≠ bytes "shodan")
    (hsig : (m.get sigFile).Checks = pre ++ ⟨t, urls, searches, notes⟩ :: post) :
    opened (performCheck host id ⟨t, urls, searches, notes⟩ d c).events = []
    ∧ performCheck host id ⟨t, urls, searches, notes⟩ d c
      = { events :=
            [Event.stdout (bytes "[-] Unknown checkType: " ++ t ++ bytes "\n"),
             Event.logged (bytes "[-] Unknown checkType: " ++ t ++ bytes "\n")]
            ++ (if notes ≠ [] then
                  [Event.stdout
                    (bytes "[!] [" ++ id ++ bytes "]: " ++ subParams notes d c ++ bytes "\n")]
                else []),
          exited := false }
    ∧ (∃ cid : Str,
        workerBody m sigFile
          = pre.map (fun ck => ⟨cid, ck⟩) ++ ⟨cid, ⟨t, urls, searches, notes⟩⟩
              :: post.map (fun ck => ⟨cid, ck⟩)
        ∧ runCalls host d c (⟨cid, ⟨t, urls, searches, notes⟩⟩ :: post.map (fun ck => ⟨cid, ck⟩))
          = { events :=
                [Event.stdout (bytes "[-] Unknown checkType: " ++ t ++ bytes "\n"),
                 Event.logged (bytes "[-] Unknown checkType: " ++ t ++ bytes "\n")]
                ++ (if notes ≠ [] then
                      [Event.stdout
                        (bytes "[!] [" ++ cid ++ bytes "]: " ++ subParams notes d c ++ bytes "\n")]
                    else [])
                ++ (runCalls host d c (post.map (fun ck => ⟨cid, ck⟩))).events,
              exited := (runCalls host d c (post.map (fun ck => ⟨cid, ck⟩))).exited }) := by
  obtain ⟨h0, h1, h2, h3, h4⟩ := ht
  have hb : ¬ (t = bytes "" ∨ t = bytes "browser" ∨ t = bytes "browse") := by
    rintro (h | h | h)
    · exact h0 h
    · exact h1 h
    · exact h2 h
  have hp := fun i => performCheck_unknown host t i d c notes urls searches hb h3 h4
  refine ⟨?_, hp id, ?_⟩
  · rw [hp id]
    simp only [opened_append, opened_ite_note, List.append_nil]
    rfl
  · refine ⟨if (m.get sigFile).ID = [] then fileNameWOExt sigFile else (m.get sigFile).ID, ?_, ?_⟩
    · simp only [workerBody, hsig, List.map_append, List.map_cons]
    · rw [runCalls_cons_returns host d c _ _ (by rw [hp])]
      rw [hp]

/-- Witness of C4: a check of type bing followed by a browser check, on a
host where the handler starts and on one where it does not; on both the
worker gets to the browser check. -/
theorem performCheck_unknown_type_witness :
    opened (performCheck startsHost (bytes "t")
        ⟨bytes "bing", [bytes "https://{domain}"], [bytes "x"], []⟩
        (bytes "acme.com") (bytes "Acme")).events = []
    ∧ performCheck noHandlerHost (bytes "t")
        ⟨bytes "bing", [bytes "https://{domain}"], [bytes "x"], []⟩
        (bytes "acme.com") (bytes "Acme")
      = { events := [Event.stdout (bytes "[-] Unknown checkType: bing\n"),
            Event.logged (bytes "[-] Unknown checkType: bing\n")],
          exited := false }
    ∧ runCalls startsHost (bytes "acme.com") (bytes "Acme")
        [⟨bytes "t", ⟨bytes "bing", [bytes "https://{domain}"], [bytes "x"], []⟩⟩,
         ⟨bytes "t", ⟨bytes "browser", [bytes "b"], [], []⟩⟩]
      = { events := [Event.stdout (bytes "[-] Unknown checkType: bing\n"),
            Event.logged (bytes "[-] Unknown checkType: bing\n"), Event.openURL (bytes "b")],
          exited := false }
    ∧ runCalls noHandlerHost (bytes "acme.com") (bytes "Acme")
        [⟨bytes "t", ⟨bytes "bing", [bytes "https://{domain}"], [bytes "x"], []⟩⟩,
         ⟨bytes "t", ⟨bytes "browser", [bytes "b"], [], []⟩⟩]
      = { events := [Event.stdout (bytes "[-] Unknown checkType: bing\n"),
            Event.logged (bytes "[-] Unknown checkType: bing\n"), Event.fatal],
          exited := true } :=
  have h := performCheck_unknown_type startsHost (bytes "bing") (bytes "t") (bytes "acme.com")
    (bytes "Acme") [] [bytes "https://{domain}"] [bytes "x"]
    [(bytes "a.yaml", ⟨bytes "t", [⟨bytes "browser", [bytes "a"], [], []⟩,
      ⟨bytes "bing", [bytes "https://{domain}"], [bytes "x"], []⟩,
      ⟨bytes "browser", [bytes "b"], [], []⟩]⟩)]
    (bytes "a.yaml") [⟨bytes "browser", [bytes "a"], [], []⟩] [⟨bytes "browser", [bytes "b"], [], []⟩]
    (by decide) (by decide)
  ⟨h.1, by decide, by decide, by decide⟩

theorem isNoteLine_note (id text : Str) :
    isNoteLine (Event.stdout (bytes "[!] [" ++ id ++ bytes "]: " ++ text ++ bytes "\n")) = true := by
  simp only [isNoteLine, List.append_assoc]
  rw [List.isPrefixOf_iff_prefix]
  exact List.prefix_append _ _

theorem isNoteLine_unknown (t : Str) :
    isNoteLine (Event.stdout (bytes "[-] Unknown checkType: " ++ t ++ bytes "\n")) = false := by
  rfl

theorem filter_isNoteLine_note (id n d c : Str) :
    (if n ≠ [] then
        [Event.stdout (bytes "[!] [" ++ id ++ bytes "]: " ++ subParams n d c ++ bytes "\n")]
      else []).filter isNoteLine
    = (if n ≠ [] then
        [Event.stdout (bytes "[!] [" ++ id ++ bytes "]: " ++ subParams n d c ++ bytes "\n")]
      else []) := by
  split_ifs
  · simp only [List.filter, isNoteLine_note]
  · rfl

theorem withNote_filter (a : Trace) (id notes d c : Str)
    (ha : a.events.filter isNoteLine = []) :
    (withNote a id notes d c).events.filter isNoteLine
      = (if notes ≠ [] ∧ (withNote a id notes d c).exited = false then
          [Event.stdout (bytes "[!] [" ++ id ++ bytes "]: " ++ subParams notes d c ++ bytes "\n")]
        else []) := by
  unfold withNote
  by_cases h : a.exited = true
  · rw [if_pos h, ha, if_neg (by simp [h])]
  · rw [if_neg h]
    simp only [List.filter_append, ha, List.nil_append, filter_isNoteLine_note, and_true]

theorem performCheck_eq_withNote (host : Host) (id d c : Str) (check : sigCheck) :
    ∃ a : Trace, a.events.filter isNoteLine = []
      ∧ performCheck host id check d c = withNote a id check.Notes d c
      ∧ performCheck host id { check with Notes := [] } d c = withNote a id [] d c := by
  obtain ⟨t, urls, searches, notes⟩ := check
  by_cases hb : t = bytes "" ∨ t = bytes "browser" ∨ t = bytes "browse"
  · exact ⟨browseLoop host d c urls, filter_isNoteLine_browseLoop host d c urls,
      performCheck_browser host t id d c notes urls searches hb,
      performCheck_browser host t id d c [] urls searches hb⟩
  · by_cases hg : t = bytes "google"
    · subst hg
      exact ⟨_, filter_isNoteLine_searchLoop host _ d c searches,
        performCheck_google host id d c notes urls searches,
        performCheck_google host id d c [] urls searches⟩
    · by_cases hs : t = bytes "shodan"
      · subst hs
        exact ⟨_, filter_isNoteLine_searchLoop host _ d c searches,
          performCheck_shodan host id d c notes urls searches,
          performCheck_shodan host id d c [] urls searches⟩
      · refine ⟨Trace.mk
            [Event.stdout (bytes "[-] Unknown checkType: " ++ t ++ bytes "\n"),
             Event.logged (bytes "[-] Unknown checkType: " ++ t ++ bytes "\n")] false,
            ?_, ?_, ?_⟩
        · rw [List.filter_cons_of_neg (by rw [isNoteLine_unknown]; decide),
            List.filter_cons_of_neg (by simp only [isNoteLine]; decide)]
          rfl
        · rw [performCheck_unknown host t id d c notes urls searches hb hg hs]
          simp only [withNote, Bool.false_eq_true, if_false]
        · rw [performCheck_unknown host t id d c [] urls searches hb hg hs]
          simp only [withNote, Bool.false_eq_true, if_false]

/-- Counterexample to C7 as stated: on a linux host without handler a browser
check with a url and non-empty notes prints no notes line: the launch fails
and the process exits before the notes are reached. -/
theorem performCheck_notes_launch_failure :
    ¬ (∀ (host : Host) (id d c : Str) (check : sigCheck),
        (performCheck host id check d c).events.filter isNoteLine
          = (if check.Notes ≠ [] then
              [Event.stdout (bytes "[!] [" ++ id ++ bytes "]: " ++ subParams check.Notes d c
                ++ bytes "\n")]
            else []))
    ∧ performCheck noHandlerHost (bytes "t")
        ⟨bytes "browser", [bytes "https://{domain}"], [], bytes "see {domain}"⟩
        (bytes "acme.com") (bytes "Acme") = { events := [Event.fatal], exited := true } := by
  refine ⟨?_, by decide⟩
  intro h
  exact absurd (h noHandlerHost (bytes "t") (bytes "acme.com") (bytes "Acme")
    ⟨bytes "browser", [bytes "https://{domain}"], [], bytes "see {domain}"⟩) (by decide)

/-- C7 (amended): whatever the type of the check, when `performCheck` returns
(no launch of the check fails) its events are those of the same check without
notes followed, when the notes are non-empty, by the one line
`[!] [<id>]: <substituted notes>` on standard output; the notes lines among
its events are exactly that one line, recognised type or not, URL opened or
not, and there is none when the notes are empty. On any host the notes line
is printed exactly when the notes are non-empty and no launch ended the
process before it. -/
theorem performCheck_notes (host : Host) (id d c : Str) (check : sigCheck)
    (hret : (performCheck host id check d c).exited = false) :
    (performCheck host id check d c).events.filter isNoteLine
      = (if check.Notes ≠ [] then
          [Event.stdout (bytes "[!] [" ++ id ++ bytes "]: " ++ subParams check.Notes d c
            ++ bytes "\n")]
        else [])
    ∧ (performCheck host id check d c).events
      = (performCheck host id { check with Notes := [] } d c).events
        ++ (if check.Notes ≠ [] then
          [Event.stdout (bytes "[!] [" ++ id ++ bytes "]: " ++ subParams check.Notes d c
            ++ bytes "\n")]
        else [])
    ∧ (∀ other : Host,
        (performCheck other id check d c).events.filter isNoteLine
          = (if check.Notes ≠ [] ∧ (performCheck other id check d c).exited = false then
              [Event.stdout (bytes "[!] [" ++ id ++ bytes "]: " ++ subParams check.Notes d c
                ++ bytes "\n")]
            else [])) := by
  have hall : ∀ other : Host,
      (performCheck other id check d c).events.filter isNoteLine
        = (if check.Notes ≠ [] ∧ (performCheck other id check d c).exited = false then
            [Event.stdout (bytes "[!] [" ++ id ++ bytes "]: " ++ subParams check.Notes d c
              ++ bytes "\n")]
          else []) := by
    intro other
    obtain ⟨a, ha, hp, _⟩ := performCheck_eq_withNote other id d c check
    rw [hp]
    exact withNote_filter a id check.Notes d c ha
  refine ⟨?_, ?_, hall⟩
  · rw [hall host, hret]
    simp only [and_true]
  · obtain ⟨a, _, hp, hq⟩ := performCheck_eq_withNote host id d c check
    rw [hp] at hret
    rw [hp, hq]
    have hx : a.exited = false := by
      rw [← (withNote_opened a id check.Notes d c).2]
      exact hret
    simp only [withNote, hx, Bool.false_eq_true, if_false, ne_eq, not_true_eq_false,
      List.append_nil]

/-- Witness of C7 (amended): an unrecognised type with notes, on a host
without handler: nothing is launched, the check returns and the one notes
line is printed. -/
theorem performCheck_notes_witness :
    (performCheck noHandlerHost (bytes "sig")
        ⟨bytes "bing", [bytes "u"], [], bytes "see {domain}"⟩ (bytes "acme.com")
        (bytes "Acme")).exited = false
    ∧ (performCheck noHandlerHost (bytes "sig")
        ⟨bytes "bing", [bytes "u"], [], bytes "see {domain}"⟩ (bytes "acme.com")
        (bytes "Acme")).events.filter isNoteLine
      = [Event.stdout (bytes "[!] [sig]: see acme.com\n")] :=
  ⟨by decide,
    (performCheck_notes noHandlerHost (bytes "sig") (bytes "acme.com") (bytes "Acme")
      ⟨bytes "bing", [bytes "u"], [], bytes "see {domain}"⟩ (by decide)).1⟩

/-! ## Signature file discovery -/

theorem indexFrom_ne_neg_one (sub s : Str) (i : Nat) :
    indexFrom sub s i ≠ -1 ↔ sub <:+: s := by
  induction s generalizing i with
  | nil =>
    unfold indexFrom
    by_cases h : sub.isPrefixOf [] = true
    · rw [if_pos h]
      have h2 : sub <+: [] := List.isPrefixOf_iff_prefix.mp h
      constructor
      · intro _
        exact h2.isInfix
      · intro _
        omega
    · rw [if_neg h]
      constructor
      · intro h2
        exact absurd rfl h2
      · intro h2
        exfalso
        apply h
        rw [List.isPrefixOf_iff_prefix]
        have h3 : sub = [] := List.eq_nil_of_infix_nil h2
        rw [h3]
  | cons x rest ih =>
    unfold indexFrom
    rw [List.infix_cons_iff]
    by_cases h : sub.isPrefixOf (x :: rest) = true
    · rw [if_pos h]
      constructor
      · intro _
        exact Or.inl (List.isPrefixOf_iff_prefix.mp h)
      · intro _
        omega
    · rw [if_neg h, ih]
      constructor
      · intro h2
        exact Or.inr h2
      · rintro (h2 | h2)
        · exact absurd (List.isPrefixOf_iff_prefix.mpr h2) h
        · exact h2

theorem index_ne_neg_one (s sub : Str) : Index s sub ≠ -1 ↔ sub <:+: s :=
  indexFrom_ne_neg_one sub s 0

theorem checkExts_SIGFILEEXT (f : Str) (acc : List Str) :
    checkExts f acc SIGFILEEXT
      = acc ++ (if bytes ".yml" <:+: f ∨ bytes ".yaml" <:+: f then [f] else []) := by
  simp only [SIGFILEEXT, checkExts]
  by_cases h1 : bytes ".yml" <:+: f
  · rw [if_pos ((index_ne_neg_one _ _).mpr h1), if_pos (Or.inl h1)]
  · rw [if_neg (fun h => h1 ((index_ne_neg_one _ _).mp h))]
    by_cases h2 : bytes ".yaml" <:+: f
    · rw [if_pos ((index_ne_neg_one _ _).mpr h2), if_pos (Or.inr h2)]
    · rw [if_neg (fun h => h2 ((index_ne_neg_one _ _).mp h)), if_neg (by tauto),
        List.append_nil]

theorem findSigFilesLoop_eq (acc files : List Str) :
    findSigFilesLoop acc files
      = acc ++ files.filter (fun p => decide (bytes ".yml" <:+: p ∨ bytes ".yaml" <:+: p)) := by
  induction files generalizing acc with
  | nil => simp [findSigFilesLoop]
  | cons f rest ih =>
    rw [findSigFilesLoop, ih, checkExts_SIGFILEEXT]
    by_cases h : bytes ".yml" <:+: f ∨ bytes ".yaml" <:+: f
    · simp [h]
    · simp [h]

/-- C6: `findSigFiles` returns the input entries whose path has `.yml` or
`.yaml` as a substring anywhere, in input order, each input entry at most
once (the result is the filter of the input, hence a sublist of it); a path
is returned only if it is an input entry with one of the two substrings. -/
theorem findSigFiles_filter (filesToParse : List Str) :
    findSigFiles filesToParse
      = filesToParse.filter (fun p => decide (bytes ".yml" <:+: p ∨ bytes ".yaml" <:+: p))
    ∧ (findSigFiles filesToParse).Sublist filesToParse
    ∧ (∀ p : Str, p ∈ findSigFiles filesToParse
        ↔ p ∈ filesToParse ∧ (bytes ".yml" <:+: p ∨ bytes ".yaml" <:+: p))
    ∧ findSigFiles [bytes "conf.yaml.d/readme.txt", bytes "a.txt", bytes "b.yml.yaml"]
      = [bytes "conf.yaml.d/readme.txt", bytes "b.yml.yaml"] := by
  have h : findSigFiles filesToParse
      = filesToParse.filter (fun p => decide (bytes ".yml" <:+: p ∨ bytes ".yaml" <:+: p)) := by
    rw [findSigFiles, findSigFilesLoop_eq, List.nil_append]
  refine ⟨h, ?_, ?_, by decide⟩
  · rw [h]
    exact List.filter_sublist _
  · intro p
    rw [h, List.mem_filter, decide_eq_true_iff]

/-! ## The worker -/

theorem find_set_present (m : SigTable) (key : Str) (v : signFileStruct)
    (h : m.any (fun e => e.1 == key) = true) :
    (m.map (fun e => if e.1 == key then (key, v) else e)).find? (fun e => e.1 == key)
      = some (key, v) := by
  induction m with
  | nil => simp at h
  | cons e rest ih =>
    by_cases he : e.1 = key
    · simp [he]
    · have hr : rest.any (fun e => e.1 == key) = true := by
        simpa [he] using h
      simp only [List.map_cons]
      have hne : (e.1 == key) = false := by simpa using he
      rw [hne]
      simp only [Bool.false_eq_true, if_false]
      rw [List.find?_cons_of_neg _ (by simpa using he)]
      exact ih hr

theorem find_set_absent (m : SigTable) (key : Str) (v : signFileStruct)
    (h : m.any (fun e => e.1 == key) = false) :
    (m ++ [(key, v)]).find? (fun e => e.1 == key) = some (key, v) := by
  induction m with
  | nil => simp
  | cons e rest ih =>
    have h2 : (e.1 == key) = false ∧ rest.any (fun e => e.1 == key) = false := by
      simpa [List.any_cons, Bool.or_eq_false_iff] using h
    rw [List.cons_append, List.find?_cons_of_neg _ (by simp [h2.1])]
    exact ih h2.2

theorem get_set (m : SigTable) (key : Str) (v : signFileStruct) :
    (m.set key v).get key = v := by
  unfold SigTable.set SigTable.get
  by_cases h : m.any (fun e => e.1 == key) = true
  · rw [if_pos h, find_set_present m key v h]
  · have h2 : m.any (fun e => e.1 == key) = false := Bool.eq_false_iff.mpr h
    rw [if_neg h, find_set_absent m key v h2]

/-- C5: for a signature stored in the table under its file path, every call
the worker makes for that path carries the signature's id when it is
non-empty and otherwise the base name of the path with its extension
stripped, and the calls carry the checks of the signature in declared order;
the path `recon/shodan-checks.yaml` gives the id `shodan-checks`. -/
theorem worker_checkID (m : SigTable) (sigFile : Str) (content : signFileStruct) :
    (workerBody (m.set sigFile content) sigFile).map Call.checkID
      = content.Checks.map (fun _ =>
          if content.ID ≠ [] then content.ID
          else TrimSuffix (Base sigFile) (Ext (Base sigFile)))
    ∧ (workerBody (m.set sigFile content) sigFile).map Call.myCheck = content.Checks
    ∧ fileNameWOExt sigFile = TrimSuffix (Base sigFile) (Ext (Base sigFile))
    ∧ fileNameWOExt (bytes "recon/shodan-checks.yaml") = bytes "shodan-checks"
    ∧ workerBody (m.set (bytes "recon/shodan-checks.yaml")
          ⟨[], [⟨bytes "shodan", [], [bytes "{domain}"], []⟩]⟩) (bytes "recon/shodan-checks.yaml")
      = [⟨bytes "shodan-checks", ⟨bytes "shodan", [], [bytes "{domain}"], []⟩⟩] := by
  refine ⟨?_, ?_, rfl, by decide, ?_⟩
  · simp only [workerBody, get_set, List.map_map]
    by_cases h : content.ID = []
    · simp [h, fileNameWOExt, Function.comp_def]
    · simp [h, Function.comp_def]
  · simp only [workerBody, get_set, List.map_map]
    simp [Function.comp_def]
  · simp only [workerBody, get_set]
    decide

/-! ## Order of the substitution passes -/

/-- C10: `subParams` is the three replacement passes `{domain}`, `{hostname}`,
`{company}` in that order; a placeholder brought in by the domain value is
substituted by a later pass, one brought in by the company value is not, and
the result can differ from the simultaneous substitution of the template. -/
theorem subParams_sequential (t d c : Str) :
    subParams t d c
      = ReplaceAll (ReplaceAll (ReplaceAll t (bytes "{domain}") d) (bytes "{hostname}") d)
          (bytes "{company}") c
    ∧ subParams (bytes "{domain}") (bytes "{company}") (bytes "X") = bytes "X"
    ∧ subParams (bytes "{company}") (bytes "X") (bytes "{domain}") = bytes "{domain}"
    ∧ simultaneousSubst (bytes "{domain}") (bytes "{company}") (bytes "X") = bytes "{company}"
    ∧ subParams (bytes "{domain}") (bytes "{company}") (bytes "X")
      ≠ simultaneousSubst (bytes "{domain}") (bytes "{company}") (bytes "X") := by
  refine ⟨rfl, by decide, by decide, by decide, by decide⟩

/-! ## Path expansion -/

theorem findFrom_snd (val : Str) (slice : List Str) (i : Nat) :
    (findFrom val slice i).2 = true ↔ val ∈ slice := by
  induction slice generalizing i with
  | nil => simp [findFrom]
  | cons item rest ih =>
    unfold findFrom
    by_cases h : item = val
    · simp [h]
    · rw [if_neg h, ih]
      simp [List.mem_cons, Ne.symm h]

theorem Find_snd (slice : List Str) (val : Str) : (Find slice val).2 = true ↔ val ∈ slice :=
  findFrom_snd val slice 0

theorem ExtendsFresh.refl (acc : List Str) : ExtendsFresh acc acc :=
  ⟨[], by simp, List.nodup_nil, by simp⟩

theorem ExtendsFresh.single (acc : List Str) (p : Str) (h : p ∉ acc) :
    ExtendsFresh acc (acc ++ [p]) :=
  ⟨[p], rfl, List.nodup_singleton p, by simpa using h⟩

theorem ExtendsFresh.trans {a b c : List Str} (h1 : ExtendsFresh a b) (h2 : ExtendsFresh b c) :
    ExtendsFresh a c := by
  obtain ⟨x, rfl, hx, hxa⟩ := h1
  obtain ⟨y, rfl, hy, hyb⟩ := h2
  refine ⟨x ++ y, by simp, ?_, ?_⟩
  · rw [List.nodup_append]
    refine ⟨hx, hy, ?_⟩
    intro p hpx hpy
    exact hyb p hpy (List.mem_append_right a hpx)
  · intro p hp
    rcases List.mem_append.mp hp with h | h
    · exact hxa p h
    · intro hpa
      exact hyb p h (List.mem_append_left x hpa)

theorem ExtendsFresh.nodup {a b : List Str} (h : ExtendsFresh a b) (ha : a.Nodup) : b.Nodup := by
  obtain ⟨x, rfl, hx, hxa⟩ := h
  rw [List.nodup_append]
  refine ⟨ha, hx, ?_⟩
  intro p hpa hpx
  exact hxa p hpx hpa

theorem append_if_absent (acc : List Str) (p : Str) (out : List Str)
    (h : (if !(Find acc p).2 then Except.ok (acc ++ [p]) else Except.ok acc)
      = (Except.ok out : Except Abort (List Str))) :
    ExtendsFresh acc out := by
  by_cases hf : (Find acc p).2 = true
  · rw [hf] at h
    simp only [Bool.not_true, Bool.false_eq_true, if_false, Except.ok.injEq] at h
    rw [← h]
    exact ExtendsFresh.refl acc
  · have hf2 : (Find acc p).2 = false := Bool.eq_false_iff.mpr hf
    rw [hf2] at h
    simp only [Bool.not_false, if_true, Except.ok.injEq] at h
    rw [← h]
    exact ExtendsFresh.single acc p (fun hm => hf ((Find_snd acc p).mpr hm))

theorem walkFn_fresh (fs : FileSystem) (acc : List Str) (path : Str) (out : List Str)
    (h : walkFn fs acc path = Except.ok out) : ExtendsFresh acc out := by
  unfold walkFn at h
  cases hs : fs.stat path with
  | none => rw [hs] at h; cases h
  | some mode =>
    rw [hs] at h
    simp only at h
    by_cases hm : mode = FileMode.regular
    · rw [if_pos hm] at h
      exact append_if_absent acc path out h
    · rw [if_neg hm] at h
      cases h
      exact ExtendsFresh.refl acc

theorem walkLoop_fresh (fs : FileSystem) (paths : List Str) (acc out : List Str)
    (h : walkLoop fs acc paths = Except.ok out) : ExtendsFresh acc out := by
  induction paths generalizing acc with
  | nil =>
    simp only [walkLoop, Except.ok.injEq] at h
    rw [← h]
    exact ExtendsFresh.refl acc
  | cons path rest ih =>
    unfold walkLoop at h
    cases hw : walkFn fs acc path with
    | error e => rw [hw] at h; cases h
    | ok files =>
      rw [hw] at h
      exact (walkFn_fresh fs acc path files hw).trans (ih files h)

theorem expandPath_fresh (fs : FileSystem) (acc : List Str) (spec : Str) (out : List Str)
    (hspec : Index spec (bytes "*") < 0) (h : expandPath fs acc spec = Except.ok out) :
    ExtendsFresh acc out := by
  unfold expandPath at h
  rw [if_neg (by omega)] at h
  cases hs : fs.stat spec with
  | none => rw [hs] at h; cases h
  | some mode =>
    rw [hs] at h
    cases mode with
    | dir => exact walkLoop_fresh fs _ acc out h
    | regular => exact append_if_absent acc spec out h
    | other =>
      cases h
      exact ExtendsFresh.refl acc

theorem globLoop_eq (acc ms : List Str) : globLoop acc ms = acc ++ ms := by
  induction ms generalizing acc with
  | nil => simp [globLoop]
  | cons x rest ih => simp [globLoop, ih]

theorem expandPath_extends (fs : FileSystem) (acc : List Str) (spec : Str) (out : List Str)
    (h : expandPath fs acc spec = Except.ok out) : acc <+: out := by
  by_cases hspec : Index spec (bytes "*") < 0
  · obtain ⟨x, hx, _⟩ := expandPath_fresh fs acc spec out hspec h
    exact ⟨x, hx.symm⟩
  · unfold expandPath at h
    rw [if_pos (by omega)] at h
    cases h
    rw [globLoop_eq]
    exact List.prefix_append _ _

theorem expandPaths_extends (fs : FileSystem) (specs : List Str) (acc out : List Str)
    (h : expandPaths fs acc specs = Except.ok out) : acc <+: out := by
  induction specs generalizing acc with
  | nil =>
    simp only [expandPaths, Except.ok.injEq] at h
    rw [h]
  | cons spec rest ih =>
    unfold expandPaths at h
    cases he : expandPath fs acc spec with
    | error e => rw [he] at h; cases h
    | ok files =>
      rw [he] at h
      exact (expandPath_extends fs acc spec files he).trans (ih files h)

theorem expandPaths_append (fs : FileSystem) (xs ys : List Str) (acc out : List Str)
    (h : expandPaths fs acc (xs ++ ys) = Except.ok out) :
    ∃ mid, expandPaths fs acc xs = Except.ok mid ∧ expandPaths fs mid ys = Except.ok out := by
  induction xs generalizing acc with
  | nil => exact ⟨acc, rfl, h⟩
  | cons x rest ih =>
    rw [List.cons_append] at h
    unfold expandPaths at h
    cases he : expandPath fs acc x with
    | error e => rw [he] at h; cases h
    | ok files =>
      rw [he] at h
      obtain ⟨mid, h1, h2⟩ := ih files h
      refine ⟨mid, ?_, h2⟩
      rw [expandPaths, he]
      exact h1

theorem expandPaths_fresh (fs : FileSystem) (specs : List Str) (acc out : List Str)
    (hspecs : ∀ s ∈ specs, Index s (bytes "*") < 0)
    (h : expandPaths fs acc specs = Except.ok out) : ExtendsFresh acc out := by
  induction specs generalizing acc with
  | nil =>
    simp only [expandPaths, Except.ok.injEq] at h
    rw [← h]
    exact ExtendsFresh.refl acc
  | cons spec rest ih =>
    unfold expandPaths at h
    cases he : expandPath fs acc spec with
    | error e => rw [he] at h; cases h
    | ok files =>
      rw [he] at h
      exact (expandPath_fresh fs acc spec files (hspecs spec (List.mem_cons_self _ _)) he).trans
        (ih files (fun s hs => hspecs s (List.mem_cons_of_mem _ hs)) h)

/-- C9: in a run of the expansion that yields `out`, a specifier without `*`
(a directory or a regular file) contributes to the list `pre` accumulated
before it only paths that are absent from `pre` and pairwise distinct, and
`out` is `pre`, then these paths, then the later contributions; when no
specifier of the run contains `*`, `out` has no duplicate. -/
theorem expandPaths_dedup (fs : FileSystem) (before after : List Str) (spec : Str)
    (out : List Str) (hspec : Index spec (bytes "*") < 0)
    (hrun : expandPaths fs [] (before ++ spec :: after) = Except.ok out) :
    (∃ pre added post : List Str, out = pre ++ added ++ post
        ∧ expandPaths fs [] before = Except.ok pre
        ∧ expandPath fs pre spec = Except.ok (pre ++ added)
        ∧ added.Nodup ∧ ∀ p ∈ added, p ∉ pre)
    ∧ ((∀ s ∈ before ++ after, Index s (bytes "*") < 0) → out.Nodup) := by
  constructor
  · obtain ⟨pre, hpre, hrest⟩ := expandPaths_append fs before (spec :: after) [] out hrun
    unfold expandPaths at hrest
    cases he : expandPath fs pre spec with
    | error e => rw [he] at hrest; cases hrest
    | ok files =>
      rw [he] at hrest
      obtain ⟨added, hadd, hnd, hfresh⟩ := expandPath_fresh fs pre spec files hspec he
      obtain ⟨post, hpost⟩ := expandPaths_extends fs after files out hrest
      refine ⟨pre, added, post, ?_, hpre, ?_, hnd, hfresh⟩
      · rw [← hadd, hpost]
      · rw [← hadd]
        exact he
  · intro hall
    have hspecs : ∀ s ∈ before ++ spec :: after, Index s (bytes "*") < 0 := by
      intro s hs
      rcases List.mem_append.mp hs with h | h
      · exact hall s (List.mem_append_left _ h)
      · rcases List.mem_cons.mp h with h | h
        · rw [h]; exact hspec
        · exact hall s (List.mem_append_right _ h)
    exact (expandPaths_fresh fs _ [] out hspecs hrun).nodup List.nodup_nil

/-- Witness of C9: the file `d/a.yaml` named first and then met again in the
walk of the directory `d` is listed once. -/
theorem expandPaths_dedup_witness :
    Index (bytes "d") (bytes "*") < 0
    ∧ expandPaths sampleDirFS [] ([bytes "d/a.yaml"] ++ bytes "d" :: [])
      = Except.ok [bytes "d/a.yaml", bytes "d/b.txt"]
    ∧ [bytes "d/a.yaml", bytes "d/b.txt"].Nodup :=
  ⟨by decide, rfl,
    (expandPaths_dedup sampleDirFS [bytes "d/a.yaml"] [] (bytes "d")
      [bytes "d/a.yaml", bytes "d/b.txt"] (by decide) rfl).2 (by decide)⟩

/-! ## One replacement pass on brace-delimited text -/

theorem isPrefixOf_head_ne (a x : Nat) (r s : Str) (h : x ≠ a) :
    (a :: r).isPrefixOf (x :: s) = false := by
  rw [Bool.eq_false_iff]
  intro hp
  rw [List.isPrefixOf_iff_prefix, List.cons_prefix_cons] at hp
  exact h hp.1.symm

theorem isPrefixOf_self_append (p u : Str) : p.isPrefixOf (p ++ u) = true := by
  rw [List.isPrefixOf_iff_prefix]
  exact List.prefix_append p u

theorem replaceAux_skip (old new : Str) (k : Nat) (s : Str) :
    replaceAux old new k s = replaceAux old new 0 (s.drop k) := by
  induction s generalizing k with
  | nil => cases k <;> simp [replaceAux]
  | cons x rest ih =>
    cases k with
    | zero => rfl
    | succ k => rw [replaceAux, ih k, List.drop_succ_cons]

theorem replaceAux_text (r new v u : Str) (hv : 123 ∉ v) :
    replaceAux (123 :: r) new 0 (v ++ u) = v ++ replaceAux (123 :: r) new 0 u := by
  induction v with
  | nil => rfl
  | cons x rest ih =>
    have hx : x ≠ 123 := fun h => hv (by rw [h]; exact List.mem_cons_self _ _)
    have hrest : 123 ∉ rest := fun h => hv (List.mem_cons_of_mem _ h)
    rw [List.cons_append, replaceAux, isPrefixOf_head_ne 123 x r (rest ++ u) hx]
    simp only [Bool.false_eq_true, if_false]
    rw [ih hrest, List.cons_append]

theorem replaceAux_match (a : Nat) (r new u : Str) :
    replaceAux (a :: r) new 0 ((a :: r) ++ u) = new ++ replaceAux (a :: r) new 0 u := by
  have hp : (a :: r).isPrefixOf (a :: (r ++ u)) = true := isPrefixOf_self_append (a :: r) u
  rw [List.cons_append, replaceAux, if_pos hp, replaceAux_skip]
  simp

theorem closing_unique (n w u : Str) (hn : 125 ∉ n) (hw : 125 ∉ w)
    (h : n ++ [125] <+: w ++ 125 :: u) : n = w := by
  induction n generalizing w with
  | nil =>
    cases w with
    | nil => rfl
    | cons y w2 =>
      rw [List.nil_append, List.cons_append, List.cons_prefix_cons] at h
      exact absurd (by rw [h.1]; exact List.mem_cons_self _ _) hw
  | cons a n2 ih =>
    cases w with
    | nil =>
      rw [List.nil_append, List.cons_append, List.cons_prefix_cons] at h
      exact absurd (by rw [h.1]; exact List.mem_cons_self _ _) hn
    | cons y w2 =>
      rw [List.cons_append, List.cons_append, List.cons_prefix_cons] at h
      rw [h.1, ih w2 (fun hm => hn (List.mem_cons_of_mem _ hm))
        (fun hm => hw (List.mem_cons_of_mem _ hm)) h.2]

theorem isPrefixOf_group (n w u : Str) (hn : 125 ∉ n) (hw : 125 ∉ w) (hne : w ≠ n) :
    (123 :: (n ++ [125])).isPrefixOf (123 :: (w ++ 125 :: u)) = false := by
  rw [Bool.eq_false_iff]
  intro hp
  rw [List.isPrefixOf_iff_prefix, List.cons_prefix_cons] at hp
  exact hne (closing_unique n w u hn hw hp.2).symm

theorem isPrefixOf_unclosed (n w : Str) (hw : 125 ∉ w) :
    (123 :: (n ++ [125])).isPrefixOf (123 :: w) = false := by
  rw [Bool.eq_false_iff]
  intro hp
  rw [List.isPrefixOf_iff_prefix] at hp
  have hmem : (125 : Nat) ∈ 123 :: w := hp.subset (by simp)
  rcases List.mem_cons.mp hmem with h | h
  · exact absurd h (by decide)
  · exact hw h

theorem replaceAux_group (n new w u : Str) (hn : 125 ∉ n) (hw1 : 123 ∉ w) (hw2 : 125 ∉ w)
    (hne : w ≠ n) :
    replaceAux (123 :: (n ++ [125])) new 0 (123 :: w ++ 125 :: u)
      = 123 :: w ++ 125 :: replaceAux (123 :: (n ++ [125])) new 0 u := by
  rw [List.cons_append, replaceAux, isPrefixOf_group n w u hn hw2 hne]
  simp only [Bool.false_eq_true, if_false]
  have h : w ++ 125 :: u = (w ++ [125]) ++ u := by simp
  have hv : 123 ∉ w ++ [125] := by
    intro hm
    rcases List.mem_append.mp hm with h1 | h1
    · exact hw1 h1
    · simp at h1
  rw [h, replaceAux_text _ _ _ _ hv]
  simp

theorem replaceAux_unclosed (n new w : Str) (hw1 : 123 ∉ w) (hw2 : 125 ∉ w) :
    replaceAux (123 :: (n ++ [125])) new 0 (123 :: w) = 123 :: w := by
  rw [replaceAux, isPrefixOf_unclosed n w hw2]
  simp only [Bool.false_eq_true, if_false]
  have h := replaceAux_text (n ++ [125]) new w [] hw1
  rw [List.append_nil] at h
  rw [h]
  simp [replaceAux]

/-! ## The simultaneous substitution on brace-delimited text -/

theorem placeholder_domain : bytes "{domain}" = 123 :: (bytes "domain" ++ [125]) := by decide

theorem placeholder_hostname : bytes "{hostname}" = 123 :: (bytes "hostname" ++ [125]) := by
  decide

theorem placeholder_company : bytes "{company}" = 123 :: (bytes "company" ++ [125]) := by decide

theorem simultaneousAux_skip (d c : Str) (k : Nat) (s : Str) :
    simultaneousAux d c k s = simultaneousAux d c 0 (s.drop k) := by
  induction s generalizing k with
  | nil => cases k <;> simp [simultaneousAux]
  | cons x rest ih =>
    cases k with
    | zero => rfl
    | succ k => rw [simultaneousAux, ih k, List.drop_succ_cons]

theorem simultaneousAux_other (d c : Str) (x : Nat) (s : Str)
    (h1 : (bytes "{domain}").isPrefixOf (x :: s) = false)
    (h2 : (bytes "{hostname}").isPrefixOf (x :: s) = false)
    (h3 : (bytes "{company}").isPrefixOf (x :: s) = false) :
    simultaneousAux d c 0 (x :: s) = x :: simultaneousAux d c 0 s := by
  rw [simultaneousAux, h1, h2, h3]
  simp only [Bool.false_eq_true, if_false]

theorem simultaneousAux_text (d c v u : Str) (hv : 123 ∉ v) :
    simultaneousAux d c 0 (v ++ u) = v ++ simultaneousAux d c 0 u := by
  induction v with
  | nil => rfl
  | cons x rest ih =>
    have hx : x ≠ 123 := fun h => hv (by rw [h]; exact List.mem_cons_self _ _)
    have hrest : 123 ∉ rest := fun h => hv (List.mem_cons_of_mem _ h)
    rw [List.cons_append, simultaneousAux_other d c x (rest ++ u)
      (by rw [placeholder_domain]; exact isPrefixOf_head_ne 123 x _ _ hx)
      (by rw [placeholder_hostname]; exact isPrefixOf_head_ne 123 x _ _ hx)
      (by rw [placeholder_company]; exact isPrefixOf_head_ne 123 x _ _ hx),
      ih hrest, List.cons_append]

theorem simultaneousAux_domain (d c u : Str) :
    simultaneousAux d c 0 ((123 :: bytes "domain") ++ 125 :: u)
      = d ++ simultaneousAux d c 0 u := by
  have hform : (123 :: bytes "domain") ++ 125 :: u = bytes "{domain}" ++ u := by
    rw [placeholder_domain]; simp
  have hp : (bytes "{domain}").isPrefixOf (123 :: (bytes "domain" ++ 125 :: u)) = true := by
    have h := isPrefixOf_self_append (bytes "{domain}") u
    rw [← hform] at h
    exact h
  rw [List.cons_append, simultaneousAux, if_pos hp, simultaneousAux_skip]
  rfl

theorem simultaneousAux_hostname (d c u : Str) :
    simultaneousAux d c 0 ((123 :: bytes "hostname") ++ 125 :: u)
      = d ++ simultaneousAux d c 0 u := by
  have hform : (123 :: bytes "hostname") ++ 125 :: u = bytes "{hostname}" ++ u := by
    rw [placeholder_hostname]; simp
  have hp : (bytes "{hostname}").isPrefixOf (123 :: (bytes "hostname" ++ 125 :: u)) = true := by
    have h := isPrefixOf_self_append (bytes "{hostname}") u
    rw [← hform] at h
    exact h
  have hn : (bytes "{domain}").isPrefixOf (123 :: (bytes "hostname" ++ 125 :: u)) = false := rfl
  rw [List.cons_append, simultaneousAux, hn, if_pos hp, simultaneousAux_skip]
  rfl

theorem simultaneousAux_company (d c u : Str) :
    simultaneousAux d c 0 ((123 :: bytes "company") ++ 125 :: u)
      = c ++ simultaneousAux d c 0 u := by
  have hform : (123 :: bytes "company") ++ 125 :: u = bytes "{company}" ++ u := by
    rw [placeholder_company]; simp
  have hp : (bytes "{company}").isPrefixOf (123 :: (bytes "company" ++ 125 :: u)) = true := by
    have h := isPrefixOf_self_append (bytes "{company}") u
    rw [← hform] at h
    exact h
  have hn1 : (bytes "{domain}").isPrefixOf (123 :: (bytes "company" ++ 125 :: u)) = false := rfl
  have hn2 : (bytes "{hostname}").isPrefixOf (123 :: (bytes "company" ++ 125 :: u)) = false :=
    rfl
  rw [List.cons_append, simultaneousAux, hn1, hn2, if_pos hp, simultaneousAux_skip]
  rfl

theorem simultaneousAux_group (d c w u : Str) (hw1 : 123 ∉ w) (hw2 : 125 ∉ w)
    (h1 : w ≠ bytes "domain") (h2 : w ≠ bytes "hostname") (h3 : w ≠ bytes "company") :
    simultaneousAux d c 0 ((123 :: w) ++ 125 :: u)
      = (123 :: w) ++ 125 :: simultaneousAux d c 0 u := by
  rw [List.cons_append, simultaneousAux_other d c 123 (w ++ 125 :: u)
    (by rw [placeholder_domain]; exact isPrefixOf_group _ w u (by decide) hw2 h1)
    (by rw [placeholder_hostname]; exact isPrefixOf_group _ w u (by decide) hw2 h2)
    (by rw [placeholder_company]; exact isPrefixOf_group _ w u (by decide) hw2 h3)]
  have h : w ++ 125 :: u = (w ++ [125]) ++ u := by simp
  have hv : 123 ∉ w ++ [125] := by
    intro hm
    rcases List.mem_append.mp hm with h5 | h5
    · exact hw1 h5
    · simp at h5
  rw [h, simultaneousAux_text d c _ u hv]
  simp

theorem simultaneousAux_unclosed (d c w : Str) (hw1 : 123 ∉ w) (hw2 : 125 ∉ w) :
    simultaneousAux d c 0 (123 :: w) = 123 :: w := by
  rw [simultaneousAux_other d c 123 w
    (by rw [placeholder_domain]; exact isPrefixOf_unclosed _ w hw2)
    (by rw [placeholder_hostname]; exact isPrefixOf_unclosed _ w hw2)
    (by rw [placeholder_company]; exact isPrefixOf_unclosed _ w hw2)]
  have h := simultaneousAux_text d c w [] hw1
  rw [List.append_nil] at h
  rw [h]
  simp [simultaneousAux]

/-! ## `subParams` against the simultaneous substitution -/

theorem subParams_Unnested (t d c : Str) (ht : Unnested t) (hd : 123 ∉ d) :
    subParams t d c = simultaneousSubst t d c := by
  simp only [subParams, ReplaceAll, simultaneousSubst]
  rw [placeholder_domain, placeholder_hostname, placeholder_company]
  have hnD : (125 : Nat) ∉ bytes "domain" := by decide
  have hnH : (125 : Nat) ∉ bytes "hostname" := by decide
  have hnC : (125 : Nat) ∉ bytes "company" := by decide
  induction ht with
  | nil => rfl
  | text x s hx _ ih =>
    have hv : 123 ∉ [x] := by
      intro hm
      exact hx (List.mem_singleton.mp hm).symm
    have e : ∀ (n new u : Str), replaceAux (123 :: (n ++ [125])) new 0 (x :: u)
        = x :: replaceAux (123 :: (n ++ [125])) new 0 u :=
      fun n new u => replaceAux_text (n ++ [125]) new [x] u hv
    have e2 : simultaneousAux d c 0 (x :: s) = x :: simultaneousAux d c 0 s :=
      simultaneousAux_text d c [x] s hv
    rw [e, e, e, ih, e2]
  | group w rest hw1 hw2 _ ih =>
    have hform : ∀ u : Str, (123 :: w) ++ 125 :: u = (123 :: (w ++ [125])) ++ u := by
      intro u; simp
    by_cases h1 : w = bytes "domain"
    · subst h1
      rw [simultaneousAux_domain, hform, replaceAux_match, replaceAux_text _ d d _ hd,
        replaceAux_text _ c d _ hd, ih]
    · by_cases h2 : w = bytes "hostname"
      · subst h2
        rw [simultaneousAux_hostname, replaceAux_group _ d _ rest hnD hw1 hw2 h1, hform,
          replaceAux_match, replaceAux_text _ c d _ hd, ih]
      · by_cases h3 : w = bytes "company"
        · subst h3
          rw [simultaneousAux_company, replaceAux_group _ d _ rest hnD hw1 hw2 h1,
            replaceAux_group _ d _ _ hnH hw1 hw2 h2, hform, replaceAux_match, ih]
        · rw [simultaneousAux_group d c w rest hw1 hw2 h1 h2 h3,
            replaceAux_group _ d _ rest hnD hw1 hw2 h1,
            replaceAux_group _ d _ _ hnH hw1 hw2 h2,
            replaceAux_group _ c _ _ hnC hw1 hw2 h3, ih]
  | unclosed w hw1 hw2 =>
    rw [simultaneousAux_unclosed d c w hw1 hw2, replaceAux_unclosed _ d w hw1 hw2,
      replaceAux_unclosed _ d w hw1 hw2, replaceAux_unclosed _ c w hw1 hw2]

theorem unnested_pending (s : Str) (h : unnested true s = true) :
    (∃ w rest : Str, s = w ++ 125 :: rest ∧ 123 ∉ w ∧ 125 ∉ w ∧ unnested false rest = true)
    ∨ (123 ∉ s ∧ 125 ∉ s) := by
  induction s with
  | nil => exact Or.inr ⟨by simp, by simp⟩
  | cons x s ih =>
    unfold unnested at h
    by_cases hx : x = 123
    · rw [if_pos hx] at h
      simp at h
    · rw [if_neg hx] at h
      by_cases hy : x = 125
      · rw [if_pos hy] at h
        exact Or.inl ⟨[], s, by rw [hy]; rfl, by simp, by simp, h⟩
      · rw [if_neg hy] at h
        rcases ih h with ⟨w, rest, hs, hw1, hw2, hr⟩ | ⟨h1, h2⟩
        · refine Or.inl ⟨x :: w, rest, by rw [hs]; rfl, ?_, ?_, hr⟩
          · intro hm
            rcases List.mem_cons.mp hm with h5 | h5
            · exact hx h5.symm
            · exact hw1 h5
          · intro hm
            rcases List.mem_cons.mp hm with h5 | h5
            · exact hy h5.symm
            · exact hw2 h5
        · refine Or.inr ⟨?_, ?_⟩
          · intro hm
            rcases List.mem_cons.mp hm with h5 | h5
            · exact hx h5.symm
            · exact h1 h5
          · intro hm
            rcases List.mem_cons.mp hm with h5 | h5
            · exact hy h5.symm
            · exact h2 h5

theorem Unnested_of_unnested (k : Nat) (t : Str) (hk : t.length ≤ k)
    (h : unnested false t = true) : Unnested t := by
  induction k generalizing t with
  | zero =>
    have : t = [] := List.length_eq_zero.mp (Nat.le_zero.mp hk)
    rw [this]
    exact Unnested.nil
  | succ k ih =>
    cases t with
    | nil => exact Unnested.nil
    | cons x s =>
      have hs : s.length ≤ k := by simpa using hk
      unfold unnested at h
      by_cases hx : x = 123
      · rw [if_pos hx] at h
        simp only [Bool.false_eq_true, if_false] at h
        rw [hx]
        rcases unnested_pending s h with ⟨w, rest, hsw, hw1, hw2, hr⟩ | ⟨h1, h2⟩
        · rw [hsw]
          have hlen : rest.length ≤ k := by
            have : s.length = w.length + (rest.length + 1) := by rw [hsw]; simp
            omega
          exact Unnested.group w rest hw1 hw2 (ih rest hlen hr)
        · exact Unnested.unclosed s h1 h2
      · rw [if_neg hx] at h
        have h2 : unnested false s = true := by
          by_cases hy : x = 125
          · rw [if_pos hy] at h; exact h
          · rw [if_neg hy] at h; exact h
        exact Unnested.text x s hx (ih s hs h2)

/-- Counterexample to C1 as stated: with the domain value `{company}` the
template `{domain}` does not become the domain value, and with an empty
domain value the template `{comp{domain}any}` becomes the company value,
whereas replacing every placeholder occurrence of the template and leaving
the other text verbatim gives `{company}` in both cases. -/
theorem subParams_not_simultaneous :
    ¬ (∀ t d c : Str, subParams t d c = simultaneousSubst t d c)
    ∧ subParams (bytes "{domain}") (bytes "{company}") (bytes "X") = bytes "X"
    ∧ simultaneousSubst (bytes "{domain}") (bytes "{company}") (bytes "X") = bytes "{company}"
    ∧ subParams (bytes "{comp{domain}any}") [] (bytes "X") = bytes "X"
    ∧ simultaneousSubst (bytes "{comp{domain}any}") [] (bytes "X") = bytes "{company}" := by
  refine ⟨?_, by decide, by decide, by decide, by decide⟩
  intro h
  exact absurd (h (bytes "{domain}") (bytes "{company}") (bytes "X")) (by decide)

/-- C1 (amended): for every template in which no `{` is followed by another
`{` before the next `}`, every domain value without `{` and every company
value, `subParams` returns the template with every occurrence of `{domain}`
and of `{hostname}` replaced by the domain value, every occurrence of
`{company}` replaced by the company value and all other text, unrecognised
placeholders included, left verbatim; in particular the two examples of the
specification hold. -/
theorem subParams_simultaneous (t d c : Str) (ht : unnested false t = true)
    (hd : noOpenBrace d = true) :
    subParams t d c = simultaneousSubst t d c
    ∧ subParams (bytes "{domain}-{company}") (bytes "acme.com") (bytes "Acme")
      = bytes "acme.com-Acme"
    ∧ subParams (bytes "{unknown}") (bytes "x") (bytes "y") = bytes "{unknown}" := by
  refine ⟨?_, by decide, by decide⟩
  apply subParams_Unnested t d c (Unnested_of_unnested t.length t (Nat.le_refl _) ht)
  intro hm
  have h := List.all_eq_true.mp hd 123 hm
  simp at h

/-- Witness of C1 (amended): a template with the three placeholders, an
unrecognised one, and a company value that is itself a placeholder. -/
theorem subParams_simultaneous_witness :
    unnested false (bytes "https://{hostname}/{unknown}?q={company}&d={domain}") = true
    ∧ noOpenBrace (bytes "acme.com") = true
    ∧ subParams (bytes "https://{hostname}/{unknown}?q={company}&d={domain}")
        (bytes "acme.com") (bytes "{domain}")
      = simultaneousSubst (bytes "https://{hostname}/{unknown}?q={company}&d={domain}")
        (bytes "acme.com") (bytes "{domain}") :=
  ⟨by decide, by decide,
    (subParams_simultaneous (bytes "https://{hostname}/{unknown}?q={company}&d={domain}")
      (bytes "acme.com") (bytes "{domain}") (by decide) (by decide)).1⟩

/-! ## Dispatch -/

theorem worker_eq_flatMap (m : SigTable) (keys : List Str) :
    worker m keys = keys.flatMap (workerBody m) := by
  induction keys with
  | nil => rfl
  | cons k rest ih => simp [worker, ih]

theorem flatMap_select (l : List Nat) (v : Nat) (B : List Call) (hl : l.Nodup) (hv : v ∈ l) :
    l.flatMap (fun w => if v = w then B else []) = B := by
  induction l with
  | nil => simp at hv
  | cons a rest ih =>
    rw [List.nodup_cons] at hl
    by_cases h : v = a
    · have hz : rest.flatMap (fun w => if v = w then B else []) = [] := by
        rw [List.flatMap_eq_nil_iff]
        intro w hw
        have hne : v ≠ w := by
          intro e
          apply hl.1
          rw [← h, e]
          exact hw
        rw [if_neg hne]
      rw [List.flatMap_cons, if_pos h, hz, List.append_nil]
    · have hv2 : v ∈ rest := by
        rcases List.mem_cons.mp hv with e | e
        · exact absurd e h
        · exact e
      rw [List.flatMap_cons, if_neg h, List.nil_append]
      exact ih hl.2 hv2

theorem dispatch_perm (m : SigTable) (keys : List Str) (sched : List Nat) (n : Nat)
    (hn : 0 < n) :
    List.Perm (dispatch m keys sched n).flatten (worker m keys) := by
  induction keys generalizing sched with
  | nil =>
    have h : (dispatch m [] sched n).flatten = [] := by
      simp [dispatch, received, worker]
    rw [h]
    exact List.Perm.refl _
  | cons k ks ih =>
    have hvn : sched.headD 0 % n < n := Nat.mod_lt _ hn
    have hstep : (dispatch m (k :: ks) sched n).flatten
        = (List.range n).flatMap (fun w =>
            (if sched.headD 0 % n = w then workerBody m k else [])
              ++ worker m (received n ks sched.tail w)) := by
      simp only [dispatch, List.flatMap]
      congr 1
      apply List.map_congr_left
      intro w _
      by_cases e : sched.headD 0 % n = w
      · simp only [received, if_pos e, worker]
      · simp only [received, if_neg e, List.nil_append]
    have hrest : List.Perm
        ((List.range n).flatMap (fun w => worker m (received n ks sched.tail w)))
        (worker m ks) := by
      have h := ih sched.tail
      simpa [dispatch, List.flatMap] using h
    rw [hstep, worker]
    refine (List.flatMap_append_perm (List.range n) _ _).symm.trans ?_
    rw [flatMap_select (List.range n) _ _ (List.nodup_range n) (List.mem_range.mpr hvn)]
    exact List.Perm.append_left _ hrest

theorem set_absent (m : SigTable) (key : Str) (v : signFileStruct)
    (h : key ∉ m.map Prod.fst) : m.set key v = m ++ [(key, v)] := by
  unfold SigTable.set
  have hany : ¬ (m.any (fun e => e.1 == key) = true) := by
    intro ha
    rw [List.any_eq_true] at ha
    obtain ⟨e, he, hk⟩ := ha
    apply h
    rw [List.mem_map]
    exact ⟨e, he, by simpa using hk⟩
  rw [if_neg hany]

theorem loadLoop_keys (fs : FileSystem) (keys : List Str) (m table : SigTable)
    (hload : loadLoop fs m keys = Except.ok table) (hnd : keys.Nodup)
    (hfresh : ∀ k ∈ keys, k ∉ m.map Prod.fst) :
    table.map Prod.fst = m.map Prod.fst ++ keys := by
  induction keys generalizing m with
  | nil =>
    simp only [loadLoop, Except.ok.injEq] at hload
    rw [← hload, List.append_nil]
  | cons k rest ih =>
    unfold loadLoop at hload
    cases hp : fs.parseSigFile k with
    | none => rw [hp] at hload; cases hload
    | some content =>
      rw [hp] at hload
      simp only at hload
      rw [List.nodup_cons] at hnd
      have hk : k ∉ m.map Prod.fst := hfresh k (List.mem_cons_self _ _)
      rw [set_absent m k content hk] at hload
      have h := ih (m ++ [(k, content)]) hload hnd.2 (by
        intro x hx hmem
        rw [List.map_append, List.mem_append] at hmem
        rcases hmem with h1 | h1
        · exact hfresh x (List.mem_cons_of_mem _ hx) h1
        · simp only [List.map_cons, List.map_nil, List.mem_singleton] at h1
          rw [h1] at hx
          exact hnd.1 hx)
      rw [h]
      simp

theorem get_of_mem (m : SigTable) (e : Str × signFileStruct)
    (hnd : (m.map Prod.fst).Nodup) (he : e ∈ m) : m.get e.1 = e.2 := by
  induction m with
  | nil => simp at he
  | cons a rest ih =>
    rw [List.map_cons, List.nodup_cons] at hnd
    unfold SigTable.get
    rcases List.mem_cons.mp he with h | h
    · rw [h]
      simp
    · have hne : a.1 ≠ e.1 := by
        intro heq
        apply hnd.1
        rw [heq, List.mem_map]
        exact ⟨e, h, rfl⟩
      rw [List.find?_cons_of_neg _ (by simpa using hne)]
      exact ih hnd.2 h

/-- Dispatch over a list of signature files without repetition, with at
least one worker: the calls handed to the workers are together, up to order,
the checks of every signature of the table once each, and every worker is
handed the signatures it receives one after the other, each with its checks
in declared order. -/
theorem dispatch_once_of_nodup (fs : FileSystem) (sigFiles : List Str) (table : SigTable)
    (sched : List Nat) (n : Nat) (hnd : sigFiles.Nodup)
    (hload : loadLoop fs [] sigFiles = Except.ok table) (hn : 0 < n) :
    List.Perm (dispatch table sigFiles sched n).flatten
      (table.flatMap (fun e => e.2.Checks.map (fun ck =>
        (⟨if e.2.ID = [] then fileNameWOExt e.1 else e.2.ID, ck⟩ : Call))))
    ∧ dispatch table sigFiles sched n
      = (List.range n).map (fun w => (received n sigFiles sched w).flatMap (fun k =>
          (table.get k).Checks.map (fun ck =>
            (⟨if (table.get k).ID = [] then fileNameWOExt k else (table.get k).ID, ck⟩ : Call)))) := by
  have hkeys : table.map Prod.fst = sigFiles := by
    have h := loadLoop_keys fs sigFiles [] table hload hnd (by simp)
    simpa using h
  constructor
  · refine (dispatch_perm table sigFiles sched n hn).trans ?_
    rw [worker_eq_flatMap, ← hkeys, List.flatMap_map]
    have hfun : ∀ e ∈ table, workerBody table e.1
        = e.2.Checks.map (fun ck =>
            (⟨if e.2.ID = [] then fileNameWOExt e.1 else e.2.ID, ck⟩ : Call)) := by
      intro e he
      simp only [workerBody]
      rw [get_of_mem table e (by rw [hkeys]; exact hnd) he]
    rw [List.flatMap, List.flatMap, List.map_congr_left hfun]
  · simp only [dispatch, worker_eq_flatMap]
    rfl

/-- With a worker count that is not positive and a signature file to send,
`main` never dispatches: the first send blocks and the run ends in a
deadlock. -/
theorem main_no_worker_deadlock :
    main sampleFS [bytes "a.yaml"] [] 0 = Except.error Abort.deadlock
    ∧ main sampleFS [bytes "a.yaml"] [] (-3) = Except.error Abort.deadlock := by
  exact ⟨rfl, rfl⟩

/-- C8, at the input `-s a.yaml,*.yaml`: the glob branch appends `a.yaml` a
second time, the table holds the one signature of `a.yaml` with its one
check, the key is queued twice and the check is passed to `performCheck`
twice, by one worker or by two; on a host where the handler starts the URL
is opened twice. -/
theorem main_glob_duplicate_runs_twice :
    expandPaths sampleFS [] [bytes "a.yaml", bytes "*.yaml"]
      = Except.ok [bytes "a.yaml", bytes "a.yaml"]
    ∧ loadLoop sampleFS [] (findSigFiles [bytes "a.yaml", bytes "a.yaml"])
      = Except.ok [(bytes "a.yaml",
          ⟨bytes "t", [⟨bytes "browser", [bytes "https://{domain}"], [], []⟩]⟩)]
    ∧ main sampleFS [bytes "a.yaml", bytes "*.yaml"] [0, 0] 1
      = Except.ok [[⟨bytes "t", ⟨bytes "browser", [bytes "https://{domain}"], [], []⟩⟩,
          ⟨bytes "t", ⟨bytes "browser", [bytes "https://{domain}"], [], []⟩⟩]]
    ∧ main sampleFS [bytes "a.yaml", bytes "*.yaml"] [0, 1] 2
      = Except.ok [[⟨bytes "t", ⟨bytes "browser", [bytes "https://{domain}"], [], []⟩⟩],
          [⟨bytes "t", ⟨bytes "browser", [bytes "https://{domain}"], [], []⟩⟩]]
    ∧ opened (runCalls startsHost (bytes "acme.com") (bytes "Acme")
        [⟨bytes "t", ⟨bytes "browser", [bytes "https://{domain}"], [], []⟩⟩,
         ⟨bytes "t", ⟨bytes "browser", [bytes "https://{domain}"], [], []⟩⟩]).events
      = [bytes "https://acme.com", bytes "https://acme.com"] := by
  refine ⟨rfl, rfl, rfl, rfl, by decide⟩

end GoWebBrowse
